import Mathlib

/-!
# Verification of the SecretSantaJS core (weighted sampler + pairing orchestrator)

Shallow embedding of the repository's strict implementation stack:
`src/Hat.js` (class `Hat`), the participant class `SecretSantaParticipant`
(`src/unnamed/part_001`), and the orchestrator `SecretSanta` (`src/SecretSanta.js`).

Modelling conventions:
* JS numbers are modelled as exact integers (`Int`); the repository only ever
  stores integer weights and the algorithms are integer-valued under exact
  arithmetic.  `Math.random()` values and scale factors are modelled as `ℚ`.
* JS `Map` objects used only through `get`/`set`/`delete`/`has` are modelled as
  functions `String → Option _`.
* JS exceptions are modelled with `Except`: a thrown error aborts the current
  call and propagates to the caller.
* `Math.ceil` on an exact rational is `ratCeil`, `Math.round x` is
  `⌊x + 1/2⌋` (JS rounds half towards +∞), both defined below.
-/

/-- Error kinds thrown by the core (`Hat.set`, `Hat.delete`, `Hat.draw`,
`SecretSanta.addParticipant`, `SecretSanta.removeParticipant`); `missingParticipant`
models the JS `TypeError` raised when `participants.get(name)` yields `undefined`. -/
inductive Err where
  | duplicateKey
  | notFound
  | emptySampler
  | duplicateParticipant
  | participantNotFound
  | missingParticipant
  deriving DecidableEq, Repr

/-- One element of a `Hat`: `{id, weight, cumulativeWeight}` (`src/Hat.js`). -/
structure Entry where
  id : String
  weight : Int
  cumulativeWeight : Int
  deriving DecidableEq, Repr

/-- A JS `Map` used only via `get`/`set`/`delete`/`has`. -/
def StrMap (α : Type) : Type := String → Option α

/-- `Map.prototype.get`. -/
def StrMap.get (m : StrMap α) (k : String) : Option α := m k

/-- `Map.prototype.set`. -/
def StrMap.set (m : StrMap α) (k : String) (v : α) : StrMap α :=
  fun x => if x = k then some v else m x

/-- `Map.prototype.delete`. -/
def StrMap.del (m : StrMap α) (k : String) : StrMap α :=
  fun x => if x = k then none else m x

/-- The empty `Map`. -/
def StrMap.empty : StrMap α := fun _ => none

/-- `⌊q⌋` computed directly on the rational representation (`Int./` is
Euclidean division, which floors for positive denominators). -/
def ratFloor (q : ℚ) : Int := q.num / q.den

/-- `Math.ceil` on an exact rational. -/
def ratCeil (q : ℚ) : Int := -(ratFloor (-q))

/-- `Math.round` on an exact rational (JS rounds half towards `+∞`). -/
def jsRound (q : ℚ) : Int := ratFloor (q + 1/2)

theorem ratFloor_eq (q : ℚ) : ratFloor q = ⌊q⌋ := by
  rw [Rat.floor_def]; rfl

theorem ratCeil_eq (q : ℚ) : ratCeil q = ⌈q⌉ := by
  rw [ratCeil, ratFloor_eq, ← Int.ceil_neg, neg_neg]

theorem le_ratCeil (q : ℚ) : q ≤ (ratCeil q : ℚ) := by
  rw [ratCeil_eq]; exact Int.le_ceil q

theorem ratCeil_lt (q : ℚ) : (ratCeil q : ℚ) < q + 1 := by
  rw [ratCeil_eq]; exact Int.ceil_lt_add_one q

theorem one_le_ratCeil_of_pos {q : ℚ} (hq : 0 < q) : 1 ≤ ratCeil q := by
  have h := le_ratCeil q
  have : (0 : ℚ) < (ratCeil q : ℚ) := lt_of_lt_of_le hq h
  exact_mod_cast this

/-- The weighted sampler (`class Hat`, `src/Hat.js`). -/
structure Hat where
  size : Int
  elements : List Entry
  index : StrMap Nat

/-- `new Hat()`. -/
def Hat.empty : Hat := ⟨0, [], StrMap.empty⟩

/-- `Hat.prototype.has`. -/
def Hat.has (h : Hat) (id : String) : Bool := (h.index.get id).isSome

/-- The body of `Hat.prototype.scale`: maps each element to its scaled weight
while accumulating the running cumulative weight; returns the new element list
and the final cumulative weight (the new `size`). -/
def scaleElems (factor : ℚ) (cum : Int) : List Entry → List Entry × Int
  | [] => ([], cum)
  | e :: rest =>
    let scaledWeight := ratCeil ((e.weight : ℚ) * factor)
    let cum' := cum + scaledWeight
    let (rest', cumF) := scaleElems factor cum' rest
    (⟨e.id, scaledWeight, cum'⟩ :: rest', cumF)

/-- `Hat.prototype.scale` (`src/Hat.js` uses `Math.ceil`). -/
def Hat.scale (h : Hat) (factor : ℚ) : Hat :=
  let (elems, cum) := scaleElems factor 0 h.elements
  ⟨cum, elems, h.index⟩

/-- Sum of the stored weights of a list of elements. -/
def weightSum (es : List Entry) : Int := (es.map Entry.weight).sum

theorem scaleElems_snd (factor : ℚ) :
    ∀ (es : List Entry) (cum : Int),
      (scaleElems factor cum es).2 = cum + weightSum (scaleElems factor cum es).1 := by
  intro es
  induction es with
  | nil => intro cum; simp [scaleElems, weightSum]
  | cons e rest ih =>
    intro cum
    simp only [scaleElems, weightSum, List.map_cons, List.sum_cons]
    rw [ih]
    simp [weightSum]
    ring

/-- `scale` always leaves the hat consistent: its new `size` is the sum of its
new weights. -/
theorem scale_consistent (h : Hat) (factor : ℚ) :
    (h.scale factor).size = weightSum (h.scale factor).elements := by
  have := scaleElems_snd factor h.elements 0
  simp only [Hat.scale]
  omega

theorem scaleElems_length (factor : ℚ) :
    ∀ (es : List Entry) (cum : Int), (scaleElems factor cum es).1.length = es.length := by
  intro es
  induction es with
  | nil => intro cum; simp [scaleElems]
  | cons e rest ih => intro cum; simp [scaleElems, ih]

theorem scale_length (h : Hat) (factor : ℚ) :
    (h.scale factor).elements.length = h.elements.length := by
  simp [Hat.scale, scaleElems_length]

/-- Scaling a weight by `1/10` (with `Math.ceil`) satisfies
`10 * ⌈w/10⌉ ≤ w + 9`. -/
theorem ratCeil_tenth_le (w : Int) : 10 * ratCeil ((w : ℚ) * (1/10)) ≤ w + 9 := by
  have h := ratCeil_lt ((w : ℚ) * (1/10))
  have h10 : (10 : ℚ) * (ratCeil ((w : ℚ) * (1/10)) : ℚ) < (w : ℚ) + 10 := by linarith
  have : (10 : Int) * ratCeil ((w : ℚ) * (1/10)) < w + 10 := by exact_mod_cast h10
  omega

/-- Sum of scaled-down weights: `10 * Σ ⌈wᵢ/10⌉ ≤ Σ wᵢ + 9·n`. -/
theorem weightSum_scaleTenth_le :
    ∀ (es : List Entry) (cum : Int),
      10 * weightSum (scaleElems (1/10) cum es).1 ≤ weightSum es + 9 * es.length := by
  intro es
  induction es with
  | nil => intro cum; simp [scaleElems, weightSum]
  | cons e rest ih =>
    intro cum
    simp only [scaleElems, weightSum, List.map_cons, List.sum_cons, List.length_cons]
    have h1 := ratCeil_tenth_le e.weight
    have h2 := ih (cum + ratCeil ((e.weight : ℚ) * (1/10)))
    simp only [weightSum] at h2
    push_cast
    ring_nf
    ring_nf at h1 h2
    omega

/-- Termination measure for the downscale loop in `Hat.prototype.set`:
once one `scale` has run, `size` is the true weight sum and decreases. -/
def downMeasure (h : Hat) : Nat :=
  if h.size = weightSum h.elements then h.size.toNat
  else (h.scale (1/10)).size.toNat + 1

theorem downMeasure_lt (h : Hat) (hcond : 9999 * (h.elements.length : Int) < h.size) :
    downMeasure (h.scale (1/10)) < downMeasure h := by
  have hcons := scale_consistent h (1/10)
  by_cases hc : h.size = weightSum h.elements
  · -- consistent: the scaled hat is consistent and strictly smaller
    have hlen0 : h.elements.length ≠ 0 := by
      intro hl
      have hnil : h.elements = [] := List.length_eq_zero.mp hl
      rw [hnil] at hc
      simp [weightSum] at hc
      omega
    have hbound := weightSum_scaleTenth_le h.elements 0
    have hscaled : (h.scale (1/10)).size = weightSum (scaleElems (1/10) 0 h.elements).1 := by
      rw [hcons]
      simp [Hat.scale]
    have hlenInt : (1 : Int) ≤ (h.elements.length : Int) := by
      have : 1 ≤ h.elements.length := Nat.one_le_iff_ne_zero.mpr hlen0
      exact_mod_cast this
    rw [downMeasure, downMeasure, if_pos hcons, if_pos hc, hscaled]
    rw [hc] at hcond ⊢
    have hnn : (0:Int) ≤ 9999 * (h.elements.length : Int) := by positivity
    omega
  · -- inconsistent: the measure drops to the consistent branch
    rw [downMeasure, downMeasure, if_pos hcons, if_neg hc]
    omega

/-- The downscale loop at the end of `Hat.prototype.set`:
`while (this.size > 9999 * this.elements.length) this.scale(1/10);`. -/
def Hat.downscale (h : Hat) : Hat :=
  if 9999 * (h.elements.length : Int) < h.size then Hat.downscale (h.scale (1/10)) else h
termination_by downMeasure h
decreasing_by
  exact downMeasure_lt h (by assumption)

/-- `Hat.prototype.set` (strict variant, `src/Hat.js`): throws on a duplicate
id, otherwise appends the entry and runs the downscale loop. -/
def Hat.set (h : Hat) (id : String) (weight : Int) : Except Err Hat :=
  if h.has id then .error .duplicateKey
  else
    let size' := h.size + weight
    let h' : Hat :=
      ⟨size', h.elements ++ [⟨id, weight, size'⟩], h.index.set id h.elements.length⟩
    .ok h'.downscale

/-- The cumulative-weight rebuild in `Hat.prototype.delete`: recomputes every
`cumulativeWeight` as a running prefix sum; returns the rebuilt list and the
final cumulative weight (the new `size`). -/
def recomputeElems (cum : Int) : List Entry → List Entry × Int
  | [] => ([], cum)
  | e :: rest =>
    let cum' := cum + e.weight
    let (rest', cumF) := recomputeElems cum' rest
    ({ e with cumulativeWeight := cum' } :: rest', cumF)

/-- The index rebuild in `Hat.prototype.delete`: for every position
`i ≥ idIndex` (the splice point) re-point `index` at the new position. -/
def reindexElems (idIndex : Nat) : List Entry → Nat → StrMap Nat → StrMap Nat
  | [], _, idx => idx
  | e :: rest, i, idx =>
    reindexElems idIndex rest (i + 1) (if idIndex ≤ i then idx.set e.id i else idx)

/-- `Hat.prototype.delete` (strict variant, `src/Hat.js`): throws if the id is
absent; resets the hat when it held a single element; otherwise splices the
entry out, rebuilds cumulative weights, re-indexes positions at or after the
splice point, and finally drops the id from the index. -/
def Hat.delete (h : Hat) (id : String) : Except Err Hat :=
  if ¬ h.has id then .error .notFound
  else if h.elements.length = 1 then .ok Hat.empty
  else
    let idIndex := (h.index.get id).getD 0
    let elems1 := h.elements.eraseIdx idIndex
    let rebuilt := recomputeElems 0 elems1
    let idx := (reindexElems idIndex elems1 0 h.index).del id
    .ok ⟨rebuilt.2, rebuilt.1, idx⟩

/-- The binary search inside `Hat.prototype.draw`: smallest position whose
`cumulativeWeight` is not below `random` (`mid = (left + right) / 2` is written
inline). -/
def bsearch (es : List Entry) (random : ℚ) (left right : Nat) : Nat :=
  if _h : left < right then
    if ((es.getD ((left + right) / 2) ⟨"", 0, 0⟩).cumulativeWeight : ℚ) < random then
      bsearch es random ((left + right) / 2 + 1) right
    else
      bsearch es random left ((left + right) / 2)
  else left
termination_by right - left
decreasing_by
  · omega
  · omega

/-- The in-place fairness update at the end of `Hat.prototype.draw`: every
element other than the one at `left` gains `bump` weight, and each
`cumulativeWeight` gains `bump` times the number of bumped elements at or
before it (`i+1` before `left`, `i` at or after). -/
def bumpElems (left : Nat) (bump : Int) : List Entry → Nat → List Entry
  | [], _ => []
  | e :: rest, i =>
    { e with
      weight := if i = left then e.weight else e.weight + bump,
      cumulativeWeight :=
        e.cumulativeWeight + (if i < left then (i : Int) + 1 else (i : Int)) * bump }
      :: bumpElems left bump rest (i + 1)

/-- `Hat.prototype.draw` (strict variant, `src/Hat.js`), with the value of
`Math.random()` passed in as `u`: throws on size zero, returns the sole entry
when `size == 1`, otherwise binary-searches for the drawn entry and applies the
fairness bump.  Returns the drawn id together with the updated hat. -/
def Hat.draw (h : Hat) (u : ℚ) : Except Err (String × Hat) :=
  if h.size = 0 then .error .emptySampler
  else if h.size = 1 then .ok ((h.elements.getD 0 ⟨"", 0, 0⟩).id, h)
  else
    let random := u * (h.size : ℚ)
    let left := bsearch h.elements random 0 (h.elements.length - 1)
    let id := (h.elements.getD left ⟨"", 0, 0⟩).id
    let ceilMeanWeight := ratCeil ((h.size : ℚ) / (h.elements.length : ℚ))
    let size' := h.size + ((h.elements.length : Int) - 1) * ceilMeanWeight
    .ok (id, ⟨size', bumpElems left ceilMeanWeight h.elements 0, h.index⟩)

/-- A persisted recipient record `{name, weight, frequency}`
(`src/unnamed/part_001`). -/
structure Recipient where
  name : String
  weight : Int
  frequency : Int
  deriving DecidableEq, Repr

/-- Persisted participant statistics.  The `extra` field models any JSON keys
unrelated to the core's schema: the constructor's object spread
`{...defaults, ...stats}` carries them along unchanged. -/
structure Stats where
  meanRecipientWeight : Int
  previousRecipient : String
  recipientRepeatFrequency : Int
  recipients : List Recipient
  extra : List (String × String)
  deriving DecidableEq, Repr

/-- The defaults merged in by the `SecretSantaParticipant` constructor when a
field is absent (`meanRecipientWeight: 1, previousRecipient: '',
recipientRepeatFrequency: 0, recipients: []`). -/
def defaultStats : Stats := ⟨1, "", 0, [], []⟩

/-- One record of the persisted group state (`src/SecretSanta.js` `state`).
`extra` models keys of the record besides `name`/`stats` that are unrelated to
the core's schema. -/
structure StateRecord where
  name : String
  stats : Stats
  extra : List (String × String)
  deriving DecidableEq, Repr

/-- A live participant: name, persisted statistics, and the owned `Hat`
(`src/unnamed/part_001`). -/
structure SecretSantaParticipant where
  name : String
  stats : Stats
  hat : Hat

/-- `Map.prototype.set` on a JS `Map` materialised as an array via
`Array.from(map.values())`: replace the value at the key's first occurrence,
or append when the key is new. -/
def upsert (key : α → String) (l : List α) (x : α) : List α :=
  if l.any (fun y => key y == key x) then
    l.map (fun y => if key y = key x then x else y)
  else l ++ [x]

/-- Loading a list into a JS `Map` and reading `Array.from(map.values())`:
keys keep first-insertion order, later values win. -/
def jsMapValues (key : α → String) (l : List α) : List α :=
  l.foldl (fun acc x => upsert key acc x) []

/-- `recalculateMeanRecipientWeight`:
`meanRecipientWeight = Math.round(sum of weights / count)`. -/
def recalcMeanStats (s : Stats) : Stats :=
  { s with
    meanRecipientWeight :=
      jsRound ((((s.recipients.map Recipient.weight).sum : Int) : ℚ) /
        (s.recipients.length : ℚ)) }

/-- `SecretSantaParticipant.prototype.addRecipient`: recover the remembered
weight/frequency for `name` (defaulting to the mean weight and 0), upsert the
recipient record, push the weight into the hat, and recompute the mean. -/
def SecretSantaParticipant.addRecipient (p : SecretSantaParticipant) (name : String) :
    Except Err SecretSantaParticipant :=
  let found := p.stats.recipients.find? (fun r => r.name == name)
  let weight := (found.map Recipient.weight).getD p.stats.meanRecipientWeight
  let frequency := (found.map Recipient.frequency).getD 0
  let recipients' :=
    upsert Recipient.name (jsMapValues Recipient.name p.stats.recipients)
      ⟨name, weight, frequency⟩
  match p.hat.set name weight with
  | .error e => .error e
  | .ok hat' =>
    .ok (recalcMeanStats' { p with
      stats := { p.stats with recipients := recipients' }, hat := hat' })
where
  recalcMeanStats' (q : SecretSantaParticipant) : SecretSantaParticipant :=
    { q with stats := recalcMeanStats q.stats }

/-- `SecretSantaParticipant.prototype.removeRecipient`: removes the name from
the hat only; the statistics record is retained. -/
def SecretSantaParticipant.removeRecipient (p : SecretSantaParticipant) (name : String) :
    Except Err SecretSantaParticipant :=
  match p.hat.delete name with
  | .error e => .error e
  | .ok hat' => .ok { p with hat := hat' }

/-- Scaled-down weight used by `normalizeWeights`:
`Math.ceil(recipient.weight / 10)`. -/
def tenth (w : Int) : Int := ratCeil ((w : ℚ) / 10)

theorem tenth_mul_le (w : Int) : 10 * tenth w ≤ w + 9 := by
  have h := ratCeil_tenth_le w
  have : ((w : ℚ) / 10) = (w : ℚ) * (1/10) := by ring
  rw [tenth, this]
  exact h

theorem tenth_nonpos {w : Int} (hw : w ≤ 0) : tenth w ≤ 0 := by
  rw [tenth, ratCeil_eq]
  rw [show ((0:Int) = ((0:Int) : Int)) from rfl]
  refine Int.ceil_le.mpr ?_
  have : ((w : ℚ)) ≤ 0 := by exact_mod_cast hw
  push_cast
  linarith

theorem tenth_toNat_le (w : Int) : (tenth w).toNat ≤ w.toNat := by
  rcases le_or_lt w 0 with hw | hw
  · have := tenth_nonpos hw
    omega
  · have := tenth_mul_le w
    omega

theorem tenth_toNat_lt {w : Int} (hw : 9999 < w) : (tenth w).toNat < w.toNat := by
  have := tenth_mul_le w
  omega

/-- Termination measure for `normalizeWeights`. -/
def weightNatSum (l : List Recipient) : Nat :=
  (l.map (fun r => r.weight.toNat)).sum

theorem weightNatSum_step_lt :
    ∀ l : List Recipient, (l.any (fun r => 9999 < r.weight)) = true →
      weightNatSum (l.map (fun r => { r with weight := tenth r.weight })) < weightNatSum l := by
  intro l hl
  induction l with
  | nil => simp at hl
  | cons r rest ih =>
    simp only [List.any_cons, Bool.or_eq_true] at hl
    simp only [List.map_cons, weightNatSum, List.map_map, List.sum_cons]
    rcases hl with hr | hrest
    · have h1 : (tenth r.weight).toNat < r.weight.toNat :=
        tenth_toNat_lt (by simpa using hr)
      have h2 : ∀ l' : List Recipient,
          ((l'.map (fun x => { x with weight := tenth x.weight })).map
            (fun x => x.weight.toNat)).sum ≤ (l'.map (fun x => x.weight.toNat)).sum := by
        intro l'
        induction l' with
        | nil => simp
        | cons a t iht =>
          simp only [List.map_cons, List.sum_cons]
          have := tenth_toNat_le a.weight
          omega
      have := h2 rest
      simp only [List.map_map] at this
      omega
    · have := ih hrest
      simp only [weightNatSum, List.map_map] at this
      have h1 := tenth_toNat_le r.weight
      omega

/-- `SecretSantaParticipant.prototype.normalizeWeights`:
`while (some weight > 9999) every weight = Math.ceil(weight / 10)`. -/
def normWeights (l : List Recipient) : List Recipient :=
  if h : l.any (fun r => 9999 < r.weight) then
    normWeights (l.map (fun r => { r with weight := tenth r.weight }))
  else l
termination_by weightNatSum l
decreasing_by
  exact weightNatSum_step_lt l h

/-- `SecretSantaParticipant.prototype.choose`: track consecutive repeats, set
`previousRecipient`, bump the chosen recipient's frequency and every other
recipient's weight by the mean, normalise, recompute the mean. -/
def SecretSantaParticipant.choose (p : SecretSantaParticipant) (name : String) :
    SecretSantaParticipant :=
  let rrf :=
    if p.stats.previousRecipient = name then p.stats.recipientRepeatFrequency + 1
    else p.stats.recipientRepeatFrequency
  let recips1 := p.stats.recipients.map (fun r =>
    if r.name = name then { r with frequency := r.frequency + 1 }
    else { r with weight := r.weight + p.stats.meanRecipientWeight })
  let recips2 := normWeights recips1
  { p with
    stats := recalcMeanStats
      { p.stats with
        previousRecipient := name,
        recipientRepeatFrequency := rrf,
        recipients := recips2 } }

/-- `SecretSantaParticipant.prototype.toJSON`: `{name: this.name, stats:
this.stats}` — a fresh two-key record, so record-level extra keys are not
reproduced. -/
def SecretSantaParticipant.toJSON (p : SecretSantaParticipant) : StateRecord :=
  ⟨p.name, p.stats, []⟩

/-- A Secret Santa group (`class SecretSanta`, `src/SecretSanta.js`). -/
structure SecretSanta where
  names : List String
  participants : StrMap SecretSantaParticipant
  state : List StateRecord

/-- `new SecretSanta(state)`. -/
def SecretSanta.new (state : List StateRecord) : SecretSanta :=
  ⟨[], StrMap.empty, state⟩

/-- `SecretSanta.prototype.has`. -/
def SecretSanta.hasName (g : SecretSanta) (name : String) : Bool :=
  (g.participants.get name).isSome

/-- The loop inside `addParticipant`: every existing participant gains the new
name as a recipient, and the new participant gains every existing name. -/
def addPartLoop (newName : String) :
    List String → StrMap SecretSantaParticipant → SecretSantaParticipant →
    Except Err (StrMap SecretSantaParticipant × SecretSantaParticipant)
  | [], ps, p => .ok (ps, p)
  | n :: rest, ps, p =>
    match ps.get n with
    | none => .error .missingParticipant
    | some q =>
      match q.addRecipient newName with
      | .error e => .error e
      | .ok q' =>
        match p.addRecipient n with
        | .error e => .error e
        | .ok p' => addPartLoop newName rest (ps.set n q') p'

/-- `SecretSanta.prototype.addParticipant`. -/
def SecretSanta.addParticipant (g : SecretSanta) (name : String) :
    Except Err SecretSanta :=
  if g.hasName name then .error .duplicateParticipant
  else
    match addPartLoop name g.names g.participants
      ⟨name, ((g.state.find? (fun r => r.name == name)).map StateRecord.stats).getD
        defaultStats, Hat.empty⟩ with
    | .error e => .error e
    | .ok (ps, p') => .ok ⟨g.names ++ [name], ps.set name p', g.state⟩

/-- The loop inside `removeParticipant`: every remaining participant loses the
removed name from its hat. -/
def removePartLoop (name : String) :
    List String → StrMap SecretSantaParticipant →
    Except Err (StrMap SecretSantaParticipant)
  | [], ps => .ok ps
  | n :: rest, ps =>
    match ps.get n with
    | none => .error .missingParticipant
    | some q =>
      match q.removeRecipient name with
      | .error e => .error e
      | .ok q' => removePartLoop name rest (ps.set n q')

/-- `SecretSanta.prototype.removeParticipant`. -/
def SecretSanta.removeParticipant (g : SecretSanta) (name : String) :
    Except Err SecretSanta :=
  if ¬ g.hasName name then .error .participantNotFound
  else
    match removePartLoop name (g.names.filter (fun n => n ≠ name))
        (g.participants.del name) with
    | .error e => .error e
    | .ok ps2 => .ok ⟨g.names.filter (fun n => n ≠ name), ps2, g.state⟩

/-- `SecretSanta.prototype.updateState`: JS-`Map` merge keyed by name — old
records first, processed records override, values read back in key
first-insertion order. -/
def updateStateList (old upd : List StateRecord) : List StateRecord :=
  upd.foldl (fun acc r => upsert StateRecord.name acc r)
    (old.foldl (fun acc r => upsert StateRecord.name acc r) [])

/-- The inner removal loop of `draw`: the chosen recipient is deleted from the
hat of every name still pending in the queue, skipping the recipient itself. -/
def removeFromPending (recipient : String) :
    List String → StrMap SecretSantaParticipant →
    Except Err (StrMap SecretSantaParticipant)
  | [], ps => .ok ps
  | n :: rest, ps =>
    if n = recipient then removeFromPending recipient rest ps
    else
      match ps.get n with
      | none => .error .missingParticipant
      | some q =>
        match q.removeRecipient recipient with
        | .error e => .error e
        | .ok q' => removeFromPending recipient rest (ps.set n q')

/-- The main assignment loop of `SecretSanta.prototype.draw`, processing the
shuffled queue one name at a time.  `i` counts the position in the queue (the
`i`-th hat draw consumes `rand i`); `pairs` accumulates the recorded pairs.
The ring-break rule fires at the second-to-last position (`rest.length == 1`)
when the queue's last name has not yet been chosen. -/
def drawLoop (rand : Nat → ℚ) :
    List String → Nat → StrMap SecretSantaParticipant → List (String × String) →
    Except Err (List (String × String) × StrMap SecretSantaParticipant)
  | [], _, ps, pairs => .ok (pairs, ps)
  | name :: rest, i, ps, pairs =>
    match ps.get name with
    | none => .error .missingParticipant
    | some p =>
      let step : Except Err (String × Hat) :=
        if rest.length == 1 && !(pairs.any (fun pr => pr.2 == rest.getLastD "")) then
          .ok (rest.getLastD "", p.hat)
        else p.hat.draw (rand i)
      match step with
      | .error e => .error e
      | .ok (recipient, hat') =>
        let ps1 := ps.set name { p with hat := hat' }
        match removeFromPending recipient rest ps1 with
        | .error e => .error e
        | .ok ps2 =>
          match ps2.get name with
          | none => .error .missingParticipant
          | some q =>
            drawLoop rand rest (i + 1) (ps2.set name (q.choose recipient))
              (pairs ++ [(name, recipient)])

/-- `this.names.map(name => this.participants.get(name).toJSON())`. -/
def collectJsons (ps : StrMap SecretSantaParticipant) :
    List String → Except Err (List StateRecord)
  | [] => .ok []
  | n :: rest =>
    match ps.get n with
    | none => .error .missingParticipant
    | some p =>
      match collectJsons ps rest with
      | .error e => .error e
      | .ok l => .ok (p.toJSON :: l)

/-- `SecretSanta.prototype.draw`.  The in-place shuffle
`this.names.sort(() => Math.random() - 0.5)` produces some permutation of the
names; that permutation is the parameter `shuffled` (it also becomes the new
`names` field, since `sort` mutates in place).  The hat draws consume the
`Math.random()` values `rand 0, rand 1, …`. -/
def SecretSanta.draw (g : SecretSanta) (shuffled : List String) (rand : Nat → ℚ) :
    Except Err (List (String × String) × SecretSanta) :=
  match drawLoop rand shuffled 0 g.participants [] with
  | .error e => .error e
  | .ok (pairs, ps') =>
    match collectJsons ps' shuffled with
    | .error e => .error e
    | .ok jsons =>
      .ok (pairs, ⟨shuffled, ps', updateStateList g.state jsons⟩)

/-- `SecretSanta.prototype.toJSON`: returns the state blob. -/
def SecretSanta.toJSON (g : SecretSanta) : List StateRecord := g.state

/-! ## Hat well-formedness -/

/-- The id list of a hat, in element order. -/
def Hat.ids (h : Hat) : List String := h.elements.map Entry.id

/-- The stored cumulative weights are exact running prefix sums starting at `c`. -/
def CumFrom (c : Int) : List Entry → Prop
  | [] => True
  | e :: rest => e.cumulativeWeight = c + e.weight ∧ CumFrom (c + e.weight) rest

instance instDecCumFrom (c : Int) (l : List Entry) : Decidable (CumFrom c l) :=
  match l with
  | [] => .isTrue trivial
  | e :: rest =>
    have : Decidable (CumFrom (c + e.weight) rest) := instDecCumFrom _ rest
    inferInstanceAs (Decidable (_ ∧ _))

/-- Data-model invariants of a hat (spec §3): positive weights, cumulative
prefix sums, `size` equal to the total weight, unique ids, and the `index`
map pointing each id at its position. -/
structure HatWF (h : Hat) : Prop where
  pos : ∀ e ∈ h.elements, 1 ≤ e.weight
  cum : CumFrom 0 h.elements
  size_eq : h.size = weightSum h.elements
  nodup : h.ids.Nodup
  idx : ∀ k, h.index.get k = h.ids.findIdx? (fun s => s == k)

theorem hatWF_empty : HatWF Hat.empty := by
  refine ⟨?_, ?_, ?_, ?_, ?_⟩ <;>
    simp [Hat.empty, Hat.ids, CumFrom, weightSum, StrMap.empty, StrMap.get]

/-- The conclusion of the cumulative-sum invariant as the spec states it:
cumulative weights strictly increase and the last one equals `size`. -/
def CumOK (h : Hat) : Prop :=
  (h.elements.map Entry.cumulativeWeight).Chain' (· < ·) ∧
    (h.elements ≠ [] → (h.elements.map Entry.cumulativeWeight).getLast? = some h.size)

theorem length_le_weightSum :
    ∀ es : List Entry, (∀ e ∈ es, 1 ≤ e.weight) → (es.length : Int) ≤ weightSum es := by
  intro es
  induction es with
  | nil => intro _; simp [weightSum]
  | cons e rest ih =>
    intro hpos
    have h1 : 1 ≤ e.weight := hpos e (List.mem_cons_self _ _)
    have h2 := ih (fun x hx => hpos x (List.mem_cons_of_mem _ hx))
    simp only [weightSum, List.map_cons, List.sum_cons, List.length_cons] at *
    push_cast
    omega

theorem cumFrom_chain_cons :
    ∀ (es : List Entry) (c : Int), CumFrom c es → (∀ e ∈ es, 1 ≤ e.weight) →
      (c :: es.map Entry.cumulativeWeight).Chain' (· < ·) := by
  intro es
  induction es with
  | nil => intro c _ _; simp
  | cons e rest ih =>
    intro c hcum hpos
    obtain ⟨hce, hrest⟩ := hcum
    have hw : 1 ≤ e.weight := hpos e (List.mem_cons_self _ _)
    have ihc := ih (c + e.weight) hrest (fun x hx => hpos x (List.mem_cons_of_mem _ hx))
    rw [List.map_cons, List.chain'_cons]
    exact ⟨by omega, by rw [hce]; exact ihc⟩

theorem cumFrom_getLast :
    ∀ (es : List Entry) (c : Int), CumFrom c es → es ≠ [] →
      (es.map Entry.cumulativeWeight).getLast? = some (c + weightSum es) := by
  intro es
  induction es with
  | nil => intro c _ h; exact absurd rfl h
  | cons e rest ih =>
    intro c hcum _
    obtain ⟨hce, hrest⟩ := hcum
    rcases rest with _ | ⟨e2, rest2⟩
    · simp [weightSum, hce]
    · have hlast := ih (c + e.weight) hrest (by simp)
      rw [List.map_cons, List.map_cons, List.getLast?_cons_cons]
      rw [List.map_cons] at hlast
      rw [hlast]
      simp only [weightSum, List.map_cons, List.sum_cons]
      congr 1
      ring

theorem hatWF_cumOK {h : Hat} (hw : HatWF h) : CumOK h := by
  constructor
  · exact (List.chain'_cons'.mp (cumFrom_chain_cons h.elements 0 hw.cum hw.pos)).2
  · intro hne
    rw [cumFrom_getLast h.elements 0 hw.cum hne, hw.size_eq]
    simp

theorem recomputeElems_spec :
    ∀ (es : List Entry) (c : Int),
      (recomputeElems c es).1.map Entry.id = es.map Entry.id ∧
      (recomputeElems c es).1.map Entry.weight = es.map Entry.weight ∧
      CumFrom c (recomputeElems c es).1 ∧
      (recomputeElems c es).2 = c + weightSum es := by
  intro es
  induction es with
  | nil => intro c; refine ⟨rfl, rfl, trivial, by simp [recomputeElems, weightSum]⟩
  | cons e rest ih =>
    intro c
    obtain ⟨ih1, ih2, ih3, ih4⟩ := ih (c + e.weight)
    simp only [recomputeElems, List.map_cons]
    refine ⟨by rw [ih1], by rw [ih2], ⟨rfl, ih3⟩, ?_⟩
    rw [ih4]
    simp only [weightSum, List.map_cons, List.sum_cons]
    ring

theorem scaleElems_spec (factor : ℚ) :
    ∀ (es : List Entry) (c : Int),
      (scaleElems factor c es).1.map Entry.id = es.map Entry.id ∧
      (scaleElems factor c es).1.map Entry.weight
        = es.map (fun e => ratCeil ((e.weight : ℚ) * factor)) ∧
      CumFrom c (scaleElems factor c es).1 := by
  intro es
  induction es with
  | nil => intro c; exact ⟨rfl, rfl, trivial⟩
  | cons e rest ih =>
    intro c
    obtain ⟨ih1, ih2, ih3⟩ := ih (c + ratCeil ((e.weight : ℚ) * factor))
    simp only [scaleElems, List.map_cons]
    exact ⟨by rw [ih1], by rw [ih2], ⟨rfl, ih3⟩⟩

theorem bumpElems_ids (left : Nat) (bump : Int) :
    ∀ (es : List Entry) (i : Nat),
      (bumpElems left bump es i).map Entry.id = es.map Entry.id := by
  intro es
  induction es with
  | nil => intro i; rfl
  | cons e rest ih =>
    intro i
    simp only [bumpElems, List.map_cons]
    rw [ih]

theorem bumpElems_length (left : Nat) (bump : Int) :
    ∀ (es : List Entry) (i : Nat), (bumpElems left bump es i).length = es.length := by
  intro es
  induction es with
  | nil => intro i; rfl
  | cons e rest ih =>
    intro i
    simp only [bumpElems, List.length_cons]
    rw [ih]

theorem bsearch_le_aux (es : List Entry) (r : ℚ) :
    ∀ (d left right : Nat), right - left ≤ d → left ≤ right →
      bsearch es r left right ≤ right := by
  intro d
  induction d with
  | zero =>
    intro left right hd hle
    have hEq : left = right := by omega
    rw [bsearch]
    simp [hEq]
  | succ d ih =>
    intro left right hd hle
    rw [bsearch]
    by_cases hlt : left < right
    · rw [dif_pos hlt]
      split
      · exact ih ((left + right) / 2 + 1) right (by omega) (by omega)
      · exact le_trans (ih left ((left + right) / 2) (by omega) (by omega)) (by omega)
    · rw [dif_neg hlt]
      exact hle

theorem bsearch_le (es : List Entry) (r : ℚ) (left right : Nat) (hle : left ≤ right) :
    bsearch es r left right ≤ right :=
  bsearch_le_aux es r (right - left) left right (le_refl _) hle

/-- `findIdx?` over a duplicate-free list finds the (unique) position of `k`. -/
theorem nodup_findIdx?_eq (l : List String) (k : String) :
    ∀ j : Nat, l.Nodup → l[j]? = some k → l.findIdx? (fun s => s == k) = some j := by
  induction l with
  | nil => intro j _ hj; simp at hj
  | cons s rest ih =>
    intro j hnd hget
    rcases j with _ | j
    · have hs : s = k := by simpa using hget
      subst hs
      simp [List.findIdx?_cons]
    · rw [List.getElem?_cons_succ] at hget
      have hkmem : k ∈ rest := List.getElem?_mem hget
      have hs : ¬ (s == k) := by
        simp only [beq_iff_eq]
        intro hk
        subst hk
        exact (List.nodup_cons.mp hnd).1 hkmem
      have ihr := ih j (List.nodup_cons.mp hnd).2 hget
      rw [List.findIdx?_cons, if_neg hs, List.findIdx?_start_succ, ihr]
      rfl

/-- `findIdx? = some j` gives position and membership. -/
theorem findIdx?_some_spec (l : List String) (k : String) :
    ∀ j : Nat, l.findIdx? (fun s => s == k) = some j → l[j]? = some k := by
  induction l with
  | nil => intro j h; simp at h
  | cons s rest ih =>
    intro j h
    rw [List.findIdx?_cons] at h
    by_cases hs : (s == k)
    · rw [if_pos hs] at h
      have hj : j = 0 := by simpa using h.symm
      subst hj
      have : s = k := by simpa using hs
      simp [this]
    · rw [if_neg hs] at h
      rw [List.findIdx?_start_succ] at h
      rcases Option.map_eq_some'.mp h with ⟨j', hj', rfl⟩
      have := ih j' hj'
      simpa using this

theorem scale_ids (h : Hat) (factor : ℚ) : (h.scale factor).ids = h.ids := by
  simp only [Hat.ids, Hat.scale]
  exact (scaleElems_spec factor h.elements 0).1

theorem scale_wf {h : Hat} (hw : HatWF h) {factor : ℚ} (hf : 0 < factor) :
    HatWF (h.scale factor) := by
  obtain ⟨hids, hweights, hcum⟩ := scaleElems_spec factor h.elements 0
  refine ⟨?_, ?_, ?_, ?_, ?_⟩
  · intro e he
    have hmem : e.weight ∈ (h.scale factor).elements.map Entry.weight :=
      List.mem_map_of_mem Entry.weight he
    simp only [Hat.scale] at hmem
    rw [hweights] at hmem
    rcases List.mem_map.mp hmem with ⟨x, hx, hxe⟩
    have hx1 : 1 ≤ x.weight := hw.pos x hx
    have hpos : (0 : ℚ) < (x.weight : ℚ) * factor := by
      have : (1 : ℚ) ≤ (x.weight : ℚ) := by exact_mod_cast hx1
      positivity
    rw [← hxe]
    exact one_le_ratCeil_of_pos hpos
  · simpa only [Hat.scale] using hcum
  · exact scale_consistent h factor
  · rw [scale_ids]; exact hw.nodup
  · intro k
    rw [scale_ids]
    exact hw.idx k

theorem downscale_ids : ∀ h : Hat, h.downscale.ids = h.ids
  | h => by
    rw [Hat.downscale]
    split
    · rw [downscale_ids (h.scale (1/10)), scale_ids]
    · rfl
termination_by h => downMeasure h
decreasing_by exact downMeasure_lt h (by assumption)

theorem downscale_index : ∀ h : Hat, h.downscale.index = h.index
  | h => by
    rw [Hat.downscale]
    split
    · rw [downscale_index (h.scale (1/10))]; rfl
    · rfl
termination_by h => downMeasure h
decreasing_by exact downMeasure_lt h (by assumption)

theorem downscale_wf : ∀ h : Hat, HatWF h → HatWF h.downscale
  | h, hw => by
    rw [Hat.downscale]
    split
    · exact downscale_wf (h.scale (1/10)) (scale_wf hw (by norm_num))
    · exact hw
termination_by h => downMeasure h
decreasing_by exact downMeasure_lt h (by assumption)

/-- The downscale loop establishes the average-weight bound: on exit,
`size ≤ 9999 × count`. -/
theorem downscale_post : ∀ h : Hat, ¬ (9999 * (h.downscale.elements.length : Int) < h.downscale.size)
  | h => by
    rw [Hat.downscale]
    split
    · exact downscale_post (h.scale (1/10))
    · rename_i hcond
      exact hcond
termination_by h => downMeasure h
decreasing_by exact downMeasure_lt h (by assumption)

theorem cumFrom_append_one :
    ∀ (es : List Entry) (c : Int) (id : String) (w : Int), CumFrom c es →
      CumFrom c (es ++ [⟨id, w, c + weightSum es + w⟩]) := by
  intro es
  induction es with
  | nil =>
    intro c id w _
    refine ⟨?_, trivial⟩
    simp [weightSum]
  | cons e rest ih =>
    intro c id w hcum
    obtain ⟨hce, hrest⟩ := hcum
    refine ⟨hce, ?_⟩
    have := ih (c + e.weight) id w hrest
    have harith : c + e.weight + weightSum rest + w = c + weightSum (e :: rest) + w := by
      simp only [weightSum, List.map_cons, List.sum_cons]
      ring
    rw [harith] at this
    exact this

theorem hat_set_ok {h : Hat} {id : String} (hnh : h.has id = false) (w : Int) :
    h.set id w =
      .ok (Hat.downscale
        ⟨h.size + w, h.elements ++ [⟨id, w, h.size + w⟩],
          h.index.set id h.elements.length⟩) := by
  rw [Hat.set, if_neg (by simp [hnh])]

theorem hat_set_wf {h : Hat} {id : String} (hw : HatWF h) (hnh : h.has id = false) {w : Int}
    (hwpos : 1 ≤ w) {h' : Hat} (hok : h.set id w = .ok h') : HatWF h' := by
  rw [hat_set_ok hnh] at hok
  have hidnotin : id ∉ h.ids := by
    have hidx := hw.idx id
    have : h.index.get id = none := by
      rcases hg : h.index.get id with _ | v
      · rfl
      · rw [Hat.has, hg] at hnh; simp at hnh
    rw [this] at hidx
    intro hmem
    have := (List.findIdx?_eq_none_iff.mp hidx.symm) id hmem
    simp at this
  have hpushed : HatWF ⟨h.size + w, h.elements ++ [⟨id, w, h.size + w⟩],
      h.index.set id h.elements.length⟩ := by
    refine ⟨?_, ?_, ?_, ?_, ?_⟩
    · intro e he
      rcases List.mem_append.mp he with he1 | he2
      · exact hw.pos e he1
      · have : e = ⟨id, w, h.size + w⟩ := by simpa using he2
        rw [this]
        exact hwpos
    · have := cumFrom_append_one h.elements 0 id w hw.cum
      rw [hw.size_eq]
      simpa using this
    · simp [weightSum]
      rw [hw.size_eq]
      simp [weightSum]
    · simp only [Hat.ids, List.map_append, List.map_cons, List.map_nil]
      rw [List.nodup_append]
      refine ⟨hw.nodup, List.nodup_singleton _, ?_⟩
      intro x hx
      simp only [List.mem_singleton]
      intro hxid
      subst hxid
      exact hidnotin hx
    · intro k
      show (h.index.set id h.elements.length).get k
          = ((h.elements ++ [(⟨id, w, h.size + w⟩ : Entry)]).map Entry.id).findIdx?
              (fun s => s == k)
      rw [List.map_append, List.findIdx?_append]
      by_cases hk : k = id
      · subst hk
        have h1 : (h.index.set k h.elements.length).get k = some h.elements.length := by
          simp [StrMap.set, StrMap.get]
        have h2 : (h.elements.map Entry.id).findIdx? (fun s => s == k) = none := by
          rw [List.findIdx?_eq_none_iff]
          intro x hx
          simp only [beq_eq_false_iff_ne, ne_eq]
          intro hxk
          subst hxk
          exact hidnotin hx
        rw [h1, h2]
        simp [List.findIdx?_cons]
      · have h1 : (h.index.set id h.elements.length).get k = h.index.get k := by
          simp only [StrMap.set, StrMap.get]
          rw [if_neg hk]
        have h2 : (([(⟨id, w, h.size + w⟩ : Entry)] : List Entry).map Entry.id).findIdx?
            (fun s => s == k) = none := by
          show ([id] : List String).findIdx? (fun s => s == k) = none
          rw [List.findIdx?_cons]
          rw [if_neg (by simp; exact fun hc => absurd hc.symm hk)]
          rfl
        rw [h1, h2, hw.idx k]
        simp [Hat.ids]
  have hinj := Except.ok.inj hok
  rw [← hinj]
  exact downscale_wf _ hpushed

theorem map_eraseIdx (f : α → β) :
    ∀ (l : List α) (i : Nat), (l.eraseIdx i).map f = (l.map f).eraseIdx i := by
  intro l
  induction l with
  | nil => intro i; rfl
  | cons x rest ih =>
    intro i
    rcases i with _ | i
    · rfl
    · simp only [List.eraseIdx_cons_succ, List.map_cons]
      rw [ih]

theorem findIdx?_eraseIdx_erase :
    ∀ (l : List String) (s : String) (p : Nat),
      l.findIdx? (fun x => x == s) = some p → l.eraseIdx p = l.erase s := by
  intro l
  induction l with
  | nil => intro s p h; simp at h
  | cons x rest ih =>
    intro s p h
    rw [List.findIdx?_cons] at h
    by_cases hx : (x == s)
    · rw [if_pos hx] at h
      have hp : p = 0 := by simpa using h.symm
      subst hp
      have hxs : x = s := by simpa using hx
      subst hxs
      simp [List.eraseIdx_cons_zero, List.erase_cons_head]
    · rw [if_neg hx, List.findIdx?_start_succ] at h
      rcases Option.map_eq_some'.mp h with ⟨p', hp', rfl⟩
      rw [List.eraseIdx_cons_succ, List.erase_cons_tail (by simpa using hx)]
      rw [ih s p' hp']

theorem reindexElems_get :
    ∀ (l : List Entry) (t i : Nat) (idx : StrMap Nat) (k : String),
      (l.map Entry.id).Nodup →
      (reindexElems t l i idx).get k =
        ((l.map Entry.id).findIdx? (fun s => s == k)).elim (idx.get k)
          (fun p => if t ≤ i + p then some (i + p) else idx.get k) := by
  intro l
  induction l with
  | nil => intro t i idx k _; rfl
  | cons e rest ih =>
    intro t i idx k hnd
    have hndr : (rest.map Entry.id).Nodup := (List.nodup_cons.mp (by simpa using hnd)).2
    show (reindexElems t rest (i + 1) (if t ≤ i then idx.set e.id i else idx)).get k = _
    rw [ih t (i + 1) _ k hndr]
    by_cases hek : (e.id == k)
    · have hek' : e.id = k := by simpa using hek
      have hknotin : k ∉ rest.map Entry.id := by
        rw [← hek']
        exact (List.nodup_cons.mp (by simpa using hnd)).1
      have hrnone : (rest.map Entry.id).findIdx? (fun s => s == k) = none := by
        rw [List.findIdx?_eq_none_iff]
        intro x hx
        simp only [beq_eq_false_iff_ne, ne_eq]
        intro hxk
        subst hxk
        exact hknotin hx
      rw [hrnone]
      have hcons : ((e.id :: rest.map Entry.id).findIdx? (fun s => s == k)) = some 0 := by
        rw [List.findIdx?_cons, if_pos hek]
      simp only [List.map_cons, hcons, Option.elim]
      by_cases ht : t ≤ i
      · rw [if_pos ht, if_pos (by omega)]
        simp [StrMap.set, StrMap.get, hek']
      · rw [if_neg ht, if_neg (by omega)]
    · have hget : (if t ≤ i then idx.set e.id i else idx).get k = idx.get k := by
        split
        · simp only [StrMap.set, StrMap.get]
          rw [if_neg (by intro hk; subst hk; simp at hek)]
        · rfl
      have hcons : ((e.id :: rest.map Entry.id).findIdx? (fun s => s == k)) =
          ((rest.map Entry.id).findIdx? (fun s => s == k)).map (fun p => p + 1) := by
        rw [List.findIdx?_cons, if_neg hek, List.findIdx?_start_succ]
      simp only [List.map_cons, hcons]
      rcases hfi : (rest.map Entry.id).findIdx? (fun s => s == k) with _ | p
      · simp only [Option.map_none', Option.elim]
        exact hget
      · simp only [Option.map_some', Option.elim]
        have harith : i + 1 + p = i + (p + 1) := by omega
        rw [harith, hget]

/-- `delete` on a well-formed hat containing `s` succeeds, preserves the
invariants, and removes exactly `s` from the id list. -/
theorem hat_delete_ok {h : Hat} (hw : HatWF h) {s : String} (hmem : s ∈ h.ids) :
    ∃ h', h.delete s = .ok h' ∧ HatWF h' ∧ h'.ids = h.ids.erase s := by
  rcases hfi : h.ids.findIdx? (fun x => x == s) with _ | p
  · exfalso
    have := List.findIdx?_eq_none_iff.mp hfi s hmem
    simp at this
  have hidx := hw.idx s
  rw [hfi] at hidx
  have hhas : h.has s = true := by rw [Hat.has, hidx]; rfl
  have hspec := findIdx?_some_spec _ _ _ hfi
  have hplen : p < h.ids.length := (List.getElem?_eq_some_iff.mp hspec).1
  by_cases hlen1 : h.elements.length = 1
  · refine ⟨Hat.empty, ?_, hatWF_empty, ?_⟩
    · rw [Hat.delete, if_neg (by simp [hhas]), if_pos hlen1]
    · rcases hes : h.elements with _ | ⟨e, rest⟩
      · rw [hes] at hlen1; simp at hlen1
      · have hrest : rest = [] := by
          rw [hes] at hlen1
          simpa using hlen1
        subst hrest
        have hids : h.ids = [e.id] := by rw [Hat.ids, hes]; rfl
        rw [hids] at hmem ⊢
        have hse : s = e.id := by simpa using hmem
        subst hse
        simp [Hat.empty, Hat.ids]
  · have hgetd : (h.index.get s).getD 0 = p := by rw [hidx]; rfl
    have heq : h.delete s = .ok
        ⟨(recomputeElems 0 (h.elements.eraseIdx ((h.index.get s).getD 0))).2,
         (recomputeElems 0 (h.elements.eraseIdx ((h.index.get s).getD 0))).1,
         (reindexElems ((h.index.get s).getD 0)
           (h.elements.eraseIdx ((h.index.get s).getD 0)) 0 h.index).del s⟩ := by
      rw [Hat.delete, if_neg (by simp [hhas]), if_neg hlen1]
    rw [hgetd] at heq
    obtain ⟨hid2, hwt2, hcum2, hsnd2⟩ := recomputeElems_spec (h.elements.eraseIdx p) 0
    have hids1 : (h.elements.eraseIdx p).map Entry.id = h.ids.eraseIdx p := by
      rw [map_eraseIdx]
      rfl
    have herase : h.ids.eraseIdx p = h.ids.erase s := findIdx?_eraseIdx_erase h.ids s p hfi
    have hnd1 : ((h.elements.eraseIdx p).map Entry.id).Nodup := by
      rw [hids1, herase]
      exact hw.nodup.erase s
    refine ⟨_, heq, ⟨?_, ?_, ?_, ?_, ?_⟩, ?_⟩
    · -- positive weights
      intro e he
      have hwm : e.weight ∈ (recomputeElems 0 (h.elements.eraseIdx p)).1.map Entry.weight :=
        List.mem_map_of_mem Entry.weight he
      rw [hwt2] at hwm
      rcases List.mem_map.mp hwm with ⟨e1, he1, hwe⟩
      have : e1 ∈ h.elements := (List.eraseIdx_sublist h.elements p).mem he1
      rw [← hwe]
      exact hw.pos e1 this
    · -- cumulative prefix sums
      exact hcum2
    · -- size consistency
      show (recomputeElems 0 (h.elements.eraseIdx p)).2 = _
      rw [hsnd2]
      simp only [weightSum]
      rw [hwt2]
      ring
    · -- nodup ids
      show ((recomputeElems 0 (h.elements.eraseIdx p)).1.map Entry.id).Nodup
      rw [hid2]
      exact hnd1
    · -- index consistency
      intro k
      show ((reindexElems p (h.elements.eraseIdx p) 0 h.index).del s).get k =
        ((recomputeElems 0 (h.elements.eraseIdx p)).1.map Entry.id).findIdx? (fun x => x == k)
      rw [hid2]
      by_cases hk : k = s
      · subst hk
        have hlhs : ((reindexElems p (h.elements.eraseIdx p) 0 h.index).del k).get k = none := by
          simp [StrMap.del, StrMap.get]
        rw [hlhs]
        have : k ∉ (h.elements.eraseIdx p).map Entry.id := by
          rw [hids1, herase]
          exact hw.nodup.not_mem_erase
        symm
        rw [List.findIdx?_eq_none_iff]
        intro x hx
        simp only [beq_eq_false_iff_ne, ne_eq]
        intro hxk
        subst hxk
        exact this hx
      · have hlhs : ((reindexElems p (h.elements.eraseIdx p) 0 h.index).del s).get k =
            (reindexElems p (h.elements.eraseIdx p) 0 h.index).get k := by
          simp only [StrMap.del, StrMap.get]
          rw [if_neg hk]
        rw [hlhs, reindexElems_get _ _ _ _ _ hnd1]
        rcases hfi' : ((h.elements.eraseIdx p).map Entry.id).findIdx? (fun x => x == k)
          with _ | p'
        · -- k not among remaining ids: old index must be none as well
          simp only [Option.elim]
          rw [hw.idx k]
          rw [List.findIdx?_eq_none_iff]
          intro x hx
          simp only [beq_eq_false_iff_ne, ne_eq]
          intro hxk
          subst hxk
          have hxin : x ∈ (h.elements.eraseIdx p).map Entry.id := by
            rw [hids1, herase]
            exact (List.mem_erase_of_ne hk).mpr hx
          have hcontra := List.findIdx?_eq_none_iff.mp hfi' x hxin
          simp at hcontra
        · simp only [Option.elim]
          by_cases hpp : p ≤ 0 + p'
          · rw [if_pos hpp]
            simp
          · rw [if_neg hpp]
            have hp'lt : p' < p := by omega
            have hspec' := findIdx?_some_spec _ _ _ hfi'
            rw [hids1] at hspec'
            have hgetold : h.ids[p']? = some k := by
              rw [← List.getElem?_eraseIdx_of_lt h.ids p p' hp'lt]
              exact hspec'
            rw [hw.idx k]
            exact nodup_findIdx?_eq h.ids k p' hw.nodup hgetold
    · -- resulting id list
      show (recomputeElems 0 (h.elements.eraseIdx p)).1.map Entry.id = _
      rw [hid2, hids1, herase]

/-- `draw` on a well-formed non-empty hat succeeds and returns an id of the
hat; the id list is unchanged (the drawn candidate is retained). -/
theorem hat_draw_ok {h : Hat} (hw : HatWF h) (hne : h.ids ≠ []) (u : ℚ) :
    ∃ r h', h.draw u = .ok (r, h') ∧ r ∈ h.ids ∧ h'.ids = h.ids := by
  have hlen : 1 ≤ h.elements.length := by
    rcases hes : h.elements with _ | ⟨e, rest⟩
    · exact absurd (by rw [Hat.ids, hes]; rfl) hne
    · simp
  have hlenI : (1 : Int) ≤ (h.elements.length : Int) := by exact_mod_cast hlen
  have hsz : 1 ≤ h.size := by
    rw [hw.size_eq]
    calc (1 : Int) ≤ (h.elements.length : Int) := hlenI
      _ ≤ weightSum h.elements := length_le_weightSum h.elements hw.pos
  have hsz0 : ¬ h.size = 0 := by omega
  by_cases hsz1 : h.size = 1
  · refine ⟨(h.elements.getD 0 ⟨"", 0, 0⟩).id, h, ?_, ?_, rfl⟩
    · rw [Hat.draw, if_neg hsz0, if_pos hsz1]
    · rcases hes : h.elements with _ | ⟨e, rest⟩
      · rw [hes] at hlen; simp at hlen
      · simp [Hat.ids, hes]
  · have hleft : bsearch h.elements (u * (h.size : ℚ)) 0 (h.elements.length - 1)
        < h.elements.length := by
      have := bsearch_le h.elements (u * (h.size : ℚ)) 0 (h.elements.length - 1) (by omega)
      omega
    refine ⟨(h.elements.getD (bsearch h.elements (u * (h.size : ℚ)) 0
        (h.elements.length - 1)) ⟨"", 0, 0⟩).id,
      ⟨h.size + ((h.elements.length : Int) - 1) * ratCeil ((h.size : ℚ) / (h.elements.length : ℚ)),
       bumpElems (bsearch h.elements (u * (h.size : ℚ)) 0 (h.elements.length - 1))
         (ratCeil ((h.size : ℚ) / (h.elements.length : ℚ))) h.elements 0,
       h.index⟩, ?_, ?_, ?_⟩
    · rw [Hat.draw, if_neg hsz0, if_neg hsz1]
    · have hgd : h.elements.getD
          (bsearch h.elements (u * (h.size : ℚ)) 0 (h.elements.length - 1)) ⟨"", 0, 0⟩
          = h.elements.get
            ⟨bsearch h.elements (u * (h.size : ℚ)) 0 (h.elements.length - 1), hleft⟩ := by
        rw [List.getD_eq_getElem?_getD, List.getElem?_eq_getElem hleft]
        rfl
      rw [hgd]
      exact List.mem_map_of_mem Entry.id (List.get_mem _ _ hleft)
    · show (bumpElems _ _ h.elements 0).map Entry.id = h.ids
      rw [bumpElems_ids]
      rfl

theorem hat_draw_empty (h : Hat) (u : ℚ) (h0 : h.size = 0) :
    h.draw u = .error .emptySampler := by
  rw [Hat.draw, if_pos h0]

theorem hat_draw_isOk (h : Hat) (u : ℚ) (h0 : h.size ≠ 0) : (h.draw u).isOk := by
  rw [Hat.draw, if_neg h0]
  by_cases h1 : h.size = 1
  · rw [if_pos h1]; rfl
  · rw [if_neg h1]; rfl

theorem hat_set_dup (h : Hat) (id : String) (w : Int) (hd : h.has id = true) :
    h.set id w = .error .duplicateKey := by
  rw [Hat.set, if_pos (by simp [hd])]

theorem hat_set_isOk (h : Hat) (id : String) (w : Int) (hd : h.has id = false) :
    (h.set id w).isOk := by
  rw [hat_set_ok hd]
  rfl

theorem hat_delete_missing (h : Hat) (id : String) (hd : h.has id = false) :
    h.delete id = .error .notFound := by
  rw [Hat.delete, if_pos (by simp [hd])]

theorem hat_delete_isOk (h : Hat) (id : String) (hd : h.has id = true) :
    (h.delete id).isOk := by
  rw [Hat.delete, if_neg (by simp [hd])]
  by_cases h1 : h.elements.length = 1
  · rw [if_pos h1]; rfl
  · rw [if_neg h1]; rfl

/-! ## The group draw -/

/-- `removeRecipient` only touches the hat. -/
theorem removeRecipient_ok {p : SecretSantaParticipant} (hw : HatWF p.hat) {r : String}
    (hmem : r ∈ p.hat.ids) :
    ∃ p', p.removeRecipient r = .ok p' ∧ p'.stats = p.stats ∧ p'.name = p.name ∧
      HatWF p'.hat ∧ p'.hat.ids = p.hat.ids.erase r := by
  obtain ⟨h', heq, hwf', hids'⟩ := hat_delete_ok hw hmem
  refine ⟨{ p with hat := h' }, ?_, rfl, rfl, hwf', hids'⟩
  rw [SecretSantaParticipant.removeRecipient, heq]

/-- The inner removal loop of `draw` succeeds and removes the recipient from
every pending hat (the recipient's own entry, if pending, is skipped). -/
theorem removeFromPending_ok (r : String) :
    ∀ (l : List String) (ps : StrMap SecretSantaParticipant),
      l.Nodup →
      (∀ n ∈ l, ∃ p, ps.get n = some p ∧ HatWF p.hat ∧ (n ≠ r → r ∈ p.hat.ids)) →
      ∃ ps', removeFromPending r l ps = .ok ps' ∧
        (∀ k, k ∉ l → ps'.get k = ps.get k) ∧
        (∀ n ∈ l, ∃ p p', ps.get n = some p ∧ ps'.get n = some p' ∧
          p'.stats = p.stats ∧ p'.name = p.name ∧ HatWF p'.hat ∧
          (∀ k, k ∈ p'.hat.ids ↔ ((n = r ∨ k ≠ r) ∧ k ∈ p.hat.ids))) := by
  intro l
  induction l with
  | nil =>
    intro ps _ _
    exact ⟨ps, rfl, fun k _ => rfl, fun n hn => absurd hn (List.not_mem_nil n)⟩
  | cons n rest ih =>
    intro ps hnd hinv
    obtain ⟨hnr, hndr⟩ := List.nodup_cons.mp hnd
    obtain ⟨p, hp, hwfp, hrp⟩ := hinv n (List.mem_cons_self _ _)
    by_cases hnr' : n = r
    · -- the recipient itself: skipped
      obtain ⟨ps', heq, hframe, hmem⟩ := ih ps hndr
        (fun m hm => hinv m (List.mem_cons_of_mem _ hm))
      refine ⟨ps', ?_, ?_, ?_⟩
      · subst hnr'
        show removeFromPending n (n :: rest) ps = .ok ps'
        rw [removeFromPending, if_pos rfl]
        exact heq
      · intro k hk
        exact hframe k (fun hk' => hk (List.mem_cons_of_mem _ hk'))
      · intro m hm
        rcases List.mem_cons.mp hm with rfl | hm'
        · refine ⟨p, p, hp, ?_, rfl, rfl, hwfp, ?_⟩
          · rw [hframe m hnr]
            exact hp
          · intro k
            subst hnr'
            simp
        · exact hmem m hm'
    · -- delete the recipient from this pending participant's hat
      have hrmem : r ∈ p.hat.ids := hrp hnr'
      obtain ⟨p', hrem, hst, hnm, hwf', hids'⟩ := removeRecipient_ok hwfp hrmem
      have hinvr : ∀ m ∈ rest, ∃ q, (ps.set n p').get m = some q ∧ HatWF q.hat ∧
          (m ≠ r → r ∈ q.hat.ids) := by
        intro m hm
        have hmn : m ≠ n := fun hmn => hnr (hmn ▸ hm)
        obtain ⟨q, hq, hrest⟩ := hinv m (List.mem_cons_of_mem _ hm)
        refine ⟨q, ?_, hrest⟩
        rw [← hq]
        simp only [StrMap.set, StrMap.get]
        rw [if_neg hmn]
      obtain ⟨ps', heq, hframe, hmem⟩ := ih (ps.set n p') hndr hinvr
      refine ⟨ps', ?_, ?_, ?_⟩
      · show removeFromPending r (n :: rest) ps = .ok ps'
        rw [removeFromPending, if_neg hnr']
        show (match ps.get n with
          | none => Except.error Err.missingParticipant
          | some q =>
            match q.removeRecipient r with
            | Except.error e => Except.error e
            | Except.ok q' => removeFromPending r rest (ps.set n q')) = .ok ps'
        rw [hp]
        show (match p.removeRecipient r with
          | Except.error e => Except.error e
          | Except.ok q' => removeFromPending r rest (ps.set n q')) = .ok ps'
        rw [hrem]
        exact heq
      · intro k hk
        have hk1 : k ∉ rest := fun hk' => hk (List.mem_cons_of_mem _ hk')
        have hk2 : k ≠ n := fun hk' => hk (hk' ▸ List.mem_cons_self _ _)
        rw [hframe k hk1]
        simp only [StrMap.set, StrMap.get]
        rw [if_neg hk2]
      · intro m hm
        rcases List.mem_cons.mp hm with rfl | hm'
        · refine ⟨p, p', hp, ?_, hst, hnm, hwf', ?_⟩
          · rw [hframe m hnr]
            simp [StrMap.set, StrMap.get]
          · intro k
            rw [hids', (hwfp.nodup).mem_erase_iff]
            constructor
            · rintro ⟨hkr, hkin⟩
              exact ⟨Or.inr hkr, hkin⟩
            · rintro ⟨hor, hkin⟩
              rcases hor with hmr | hkr
              · exact absurd hmr hnr'
              · exact ⟨hkr, hkin⟩
        · obtain ⟨q, q', hq, hq', hrest⟩ := hmem m hm'
          have hmn : m ≠ n := fun hmn => hnr (hmn ▸ hm')
          refine ⟨q, q', ?_, hq', hrest⟩
          rw [← hq]
          simp only [StrMap.set, StrMap.get]
          rw [if_neg hmn]

/-- Counting argument: a fresh recipient exists whenever either strictly more
names remain than have been chosen, or exactly one remains and the current
name has already been chosen. -/
theorem exists_fresh (all chosen : List String) (name : String) (hnd : all.Nodup)
    (_hndc : chosen.Nodup) (_hsub : ∀ c ∈ chosen, c ∈ all)
    (hcase : chosen.length + 1 < all.length ∨
      (all.length = chosen.length + 1 ∧ name ∈ chosen)) :
    ∃ k, k ∈ all ∧ k ∉ chosen ∧ k ≠ name := by
  by_contra hno
  push_neg at hno
  rcases hcase with hlt | ⟨heq, hnc⟩
  · -- all ⊆ name :: chosen
    have hsubset : all ⊆ name :: chosen := by
      intro x hx
      by_cases hxc : x ∈ chosen
      · exact List.mem_cons_of_mem _ hxc
      · have := hno x hx hxc
        rw [this]
        exact List.mem_cons_self _ _
    have := (List.subperm_of_subset hnd hsubset).length_le
    simp at this
    omega
  · -- all ⊆ chosen
    have hsubset : all ⊆ chosen := by
      intro x hx
      by_cases hxc : x ∈ chosen
      · exact hxc
      · have := hno x hx hxc
        rw [this]
        exact hnc
    have := (List.subperm_of_subset hnd hsubset).length_le
    omega

/-- Unfolds one successful iteration of `drawLoop`. -/
theorem drawLoop_cons_eq (rand : Nat → ℚ) (name : String) (rest : List String) (i : Nat)
    (ps : StrMap SecretSantaParticipant) (pairs : List (String × String))
    (p : SecretSantaParticipant) (recipient : String) (hat' : Hat)
    (ps2 : StrMap SecretSantaParticipant) (q : SecretSantaParticipant)
    (hp : ps.get name = some p)
    (hstep : (if rest.length == 1 && !(pairs.any (fun pr => pr.2 == rest.getLastD "")) then
        (Except.ok (rest.getLastD "", p.hat) : Except Err (String × Hat))
      else p.hat.draw (rand i)) = .ok (recipient, hat'))
    (hrem : removeFromPending recipient rest (ps.set name { p with hat := hat' }) = .ok ps2)
    (hq : ps2.get name = some q) :
    drawLoop rand (name :: rest) i ps pairs =
      drawLoop rand rest (i + 1) (ps2.set name (q.choose recipient))
        (pairs ++ [(name, recipient)]) := by
  show (match ps.get name with
    | none => (Except.error Err.missingParticipant :
        Except Err (List (String × String) × StrMap SecretSantaParticipant))
    | some p =>
      match (if rest.length == 1 && !(pairs.any (fun pr => pr.2 == rest.getLastD "")) then
          (Except.ok (rest.getLastD "", p.hat) : Except Err (String × Hat))
        else p.hat.draw (rand i)) with
      | .error e => .error e
      | .ok (recipient, hat') =>
        match removeFromPending recipient rest (ps.set name { p with hat := hat' }) with
        | .error e => .error e
        | .ok ps2 =>
          match ps2.get name with
          | none => .error .missingParticipant
          | some q =>
            drawLoop rand rest (i + 1) (ps2.set name (q.choose recipient))
              (pairs ++ [(name, recipient)])) = _
  rw [hp]
  show (match (if rest.length == 1 && !(pairs.any (fun pr => pr.2 == rest.getLastD "")) then
      (Except.ok (rest.getLastD "", p.hat) : Except Err (String × Hat))
    else p.hat.draw (rand i)) with
    | .error e => (Except.error e :
        Except Err (List (String × String) × StrMap SecretSantaParticipant))
    | .ok (recipient, hat') =>
      match removeFromPending recipient rest (ps.set name { p with hat := hat' }) with
      | .error e => .error e
      | .ok ps2 =>
        match ps2.get name with
        | none => .error .missingParticipant
        | some q =>
          drawLoop rand rest (i + 1) (ps2.set name (q.choose recipient))
            (pairs ++ [(name, recipient)])) = _
  rw [hstep]
  show (match removeFromPending recipient rest (ps.set name { p with hat := hat' }) with
    | .error e => (Except.error e :
        Except Err (List (String × String) × StrMap SecretSantaParticipant))
    | .ok ps2 =>
      match ps2.get name with
      | none => .error .missingParticipant
      | some q =>
        drawLoop rand rest (i + 1) (ps2.set name (q.choose recipient))
          (pairs ++ [(name, recipient)])) = _
  rw [hrem]
  show (match ps2.get name with
    | none => (Except.error Err.missingParticipant :
        Except Err (List (String × String) × StrMap SecretSantaParticipant))
    | some q =>
      drawLoop rand rest (i + 1) (ps2.set name (q.choose recipient))
        (pairs ++ [(name, recipient)])) = _
  rw [hq]

/-- Main invariant induction for the group draw: under the pending-hats
invariant the loop terminates successfully with a queue-ordered, duplicate-free,
fixed-point-free assignment covering every name. -/
theorem drawLoop_ok (rand : Nat → ℚ) (all : List String) (hndall : all.Nodup) :
    ∀ (remaining processed : List String) (pairs : List (String × String))
      (ps : StrMap SecretSantaParticipant) (i : Nat),
      all = processed ++ remaining →
      pairs.map Prod.fst = processed →
      (pairs.map Prod.snd).Nodup →
      (∀ c ∈ pairs.map Prod.snd, c ∈ all) →
      (∀ pr ∈ pairs, pr.1 ≠ pr.2) →
      (∀ n ∈ all, (ps.get n).isSome) →
      (∀ n ∈ remaining, ∃ p, ps.get n = some p ∧ HatWF p.hat ∧
        (∀ k, k ∈ p.hat.ids ↔ (k ∈ all ∧ k ∉ pairs.map Prod.snd ∧ k ≠ n))) →
      (remaining.length = 1 → ∀ n ∈ remaining, n ∈ pairs.map Prod.snd) →
      ∃ pairsF psF, drawLoop rand remaining i ps pairs = .ok (pairsF, psF) ∧
        pairsF.map Prod.fst = all ∧
        (pairsF.map Prod.snd).Nodup ∧
        (∀ c ∈ pairsF.map Prod.snd, c ∈ all) ∧
        (∀ pr ∈ pairsF, pr.1 ≠ pr.2) ∧
        (∀ n ∈ all, (psF.get n).isSome) := by
  intro remaining
  induction remaining with
  | nil =>
    intro processed pairs ps i hsplit hfst hndc hsub hnfix hsome _ _
    refine ⟨pairs, ps, rfl, ?_, hndc, hsub, hnfix, hsome⟩
    rw [hfst, hsplit, List.append_nil]
  | cons name rest ih =>
    intro processed pairs ps i hsplit hfst hndc hsub hnfix hsome hinv hlast
    have hnamemem : name ∈ all := by rw [hsplit]; simp
    have hndsplit := hndall
    rw [hsplit] at hndsplit
    have hndtail : (name :: rest).Nodup := (List.nodup_append.mp hndsplit).2.1
    have hnr : name ∉ rest := (List.nodup_cons.mp hndtail).1
    have hndrest : rest.Nodup := (List.nodup_cons.mp hndtail).2
    have hrestall : ∀ m ∈ rest, m ∈ all := by
      intro m hm; rw [hsplit]; simp [hm]
    have hlens : all.length = processed.length + 1 + rest.length := by
      rw [hsplit]; simp; omega
    have hpairslen : pairs.length = processed.length := by
      rw [← hfst, List.length_map]
    obtain ⟨p, hp, hwfp, hiff⟩ := hinv name (List.mem_cons_self _ _)
    -- the step produces a fresh recipient
    have key : ∃ r hat',
        (if rest.length == 1 && !(pairs.any (fun pr => pr.2 == rest.getLastD "")) then
          (Except.ok (rest.getLastD "", p.hat) : Except Err (String × Hat))
        else p.hat.draw (rand i)) = .ok (r, hat') ∧
        r ∈ all ∧ r ∉ pairs.map Prod.snd ∧ r ≠ name ∧ hat'.ids = p.hat.ids ∧
        (rest.length = 1 → ∀ m ∈ rest, m ∈ pairs.map Prod.snd ∨ m = r) := by
      by_cases hb : (rest.length == 1 &&
          !(pairs.any (fun pr => pr.2 == rest.getLastD ""))) = true
      · -- ring break
        rw [if_pos hb]
        obtain ⟨hb1, hb2⟩ := Bool.and_eq_true_iff.mp hb
        have hrl : rest.length = 1 := by simpa using hb1
        rcases rest with _ | ⟨b0, rest'⟩
        · simp at hrl
        · have hrest0 : rest' = [] := by simpa using hrl
          subst hrest0
          have hlastd : ([b0].getLastD "") = b0 := rfl
          have hanyf : pairs.any (fun pr => pr.2 == b0) = false := by
            rw [hlastd] at hb2
            simpa using hb2
          have hb0notc : b0 ∉ pairs.map Prod.snd := by
            intro hmem
            rcases List.mem_map.mp hmem with ⟨pr, hpr, hpr2⟩
            have := List.any_eq_false.mp hanyf pr hpr
            rw [hpr2] at this
            simp at this
          have hb0all : b0 ∈ all := hrestall b0 (by simp)
          have hb0nn : b0 ≠ name := by
            intro hcontra
            exact hnr (by rw [hcontra]; simp)
          refine ⟨b0, p.hat, rfl, hb0all, hb0notc, hb0nn, rfl, ?_⟩
          intro _ m hm
          right
          simpa using hm
      · -- normal case: draw from the hat, which is non-empty
        rw [if_neg hb]
        have hfresh : ∃ k, k ∈ all ∧ k ∉ pairs.map Prod.snd ∧ k ≠ name := by
          apply exists_fresh all (pairs.map Prod.snd) name hndall hndc hsub
          rcases hrest : rest with _ | ⟨b0, rest'⟩
          · right
            constructor
            · rw [hlens, hrest]
              simp [hpairslen]
            · apply hlast
              · rw [hrest]
                rfl
              · exact List.mem_cons_self _ _
          · left
            rw [hlens, hrest]
            simp only [List.length_cons, List.length_map, hpairslen]
            omega
        obtain ⟨k0, hk0all, hk0nc, hk0nn⟩ := hfresh
        have hk0ids : k0 ∈ p.hat.ids := (hiff k0).mpr ⟨hk0all, hk0nc, hk0nn⟩
        have hidsne : p.hat.ids ≠ [] := by
          intro hnil
          rw [hnil] at hk0ids
          exact (List.not_mem_nil k0) hk0ids
        obtain ⟨r, hat', hdraw, hrmem, hrids⟩ := hat_draw_ok hwfp hidsne (rand i)
        obtain ⟨hrall, hrnc, hrnn⟩ := (hiff r).mp hrmem
        refine ⟨r, hat', hdraw, hrall, hrnc, hrnn, hrids, ?_⟩
        intro hrl m hm
        left
        rcases rest with _ | ⟨b0, rest'⟩
        · simp at hrl
        · have hrest0 : rest' = [] := by simpa using hrl
          subst hrest0
          have hm0 : m = b0 := by simpa using hm
          have hany : pairs.any (fun pr => pr.2 == b0) = true := by
            by_contra hanyf
            apply hb
            have h2 : ([b0].getLastD "") = b0 := rfl
            rw [h2]
            have h3 : pairs.any (fun pr => pr.2 == b0) = false :=
              Bool.eq_false_iff.mpr hanyf
            rw [h3]
            rfl
          rcases List.any_eq_true.mp hany with ⟨pr, hpr, hpr2⟩
          have hpr2' : pr.2 = b0 := by simpa using hpr2
          rw [hm0, ← hpr2']
          exact List.mem_map_of_mem Prod.snd hpr
    obtain ⟨r, hat', hstep, hrall, hrnc, hrnn, hatids, hlastnew⟩ := key
    -- remove the recipient from all pending hats
    have hremhyp : ∀ m ∈ rest, ∃ q,
        (ps.set name { p with hat := hat' }).get m = some q ∧ HatWF q.hat ∧
        (m ≠ r → r ∈ q.hat.ids) := by
      intro m hm
      have hmn : m ≠ name := fun hmn => hnr (hmn ▸ hm)
      obtain ⟨q, hq, hwfq, hiffq⟩ := hinv m (List.mem_cons_of_mem _ hm)
      refine ⟨q, ?_, hwfq, ?_⟩
      · simp only [StrMap.set, StrMap.get]
        rw [if_neg hmn]
        exact hq
      · intro hmr
        exact (hiffq r).mpr ⟨hrall, hrnc, Ne.symm hmr⟩
    obtain ⟨ps2, hrem, hframe2, hmem2⟩ := removeFromPending_ok r rest
      (ps.set name { p with hat := hat' }) hndrest hremhyp
    have hps2name : ps2.get name = some { p with hat := hat' } := by
      rw [hframe2 name hnr]
      simp [StrMap.set, StrMap.get]
    have heq := drawLoop_cons_eq rand name rest i ps pairs p r hat' ps2 _ hp hstep hrem
      hps2name
    rw [heq]
    -- recursive call
    apply ih (processed ++ [name]) (pairs ++ [(name, r)])
      (ps2.set name (SecretSantaParticipant.choose { p with hat := hat' } r)) (i + 1)
    · rw [hsplit, List.append_assoc]
      rfl
    · simp [hfst]
    · rw [List.map_append]
      rw [List.nodup_append]
      refine ⟨hndc, by simp, ?_⟩
      intro x hx hxr
      have hxr' : x = r := by simpa using hxr
      subst hxr'
      exact hrnc hx
    · intro c hc
      rw [List.map_append] at hc
      rcases List.mem_append.mp hc with hc1 | hc2
      · exact hsub c hc1
      · have : c = r := by simpa using hc2
        subst this
        exact hrall
    · intro pr hpr
      rcases List.mem_append.mp hpr with hpr1 | hpr2
      · exact hnfix pr hpr1
      · have : pr = (name, r) := by simpa using hpr2
        subst this
        exact Ne.symm hrnn
    · -- someness is preserved
      intro n hn
      by_cases hnname : n = name
      · subst hnname
        simp [StrMap.set, StrMap.get]
      · have h1 : (ps2.set name (SecretSantaParticipant.choose { p with hat := hat' } r)).get n
            = ps2.get n := by
          simp only [StrMap.set, StrMap.get]
          rw [if_neg hnname]
        rw [h1]
        by_cases hnrest : n ∈ rest
        · obtain ⟨_, p', _, hp', _⟩ := hmem2 n hnrest
          rw [hp']
          rfl
        · rw [hframe2 n hnrest]
          simp only [StrMap.set, StrMap.get]
          rw [if_neg hnname]
          exact hsome n hn
    · -- the pending-hats invariant for the rest of the queue
      intro m hm
      have hmn : m ≠ name := fun hmn => hnr (hmn ▸ hm)
      obtain ⟨pm, pm', hpm, hpm', hstm, hnmm, hwfm, hiffm'⟩ := hmem2 m hm
      have hpmold : ps.get m = some pm := by
        rw [← hpm]
        simp only [StrMap.set, StrMap.get]
        rw [if_neg hmn]
      obtain ⟨qm, hqm, hwfqm, hiffqm⟩ := hinv m (List.mem_cons_of_mem _ hm)
      have hqmeq : qm = pm := by
        rw [hqm] at hpmold
        exact (Option.some.inj hpmold)
      subst hqmeq
      refine ⟨pm', ?_, hwfm, ?_⟩
      · simp only [StrMap.set, StrMap.get]
        rw [if_neg hmn]
        exact hpm'
      · intro k
        rw [hiffm' k, hiffqm k]
        have hchosen' : (k ∈ (pairs ++ [(name, r)]).map Prod.snd) ↔
            (k ∈ pairs.map Prod.snd ∨ k = r) := by
          rw [List.map_append]
          simp
        constructor
        · rintro ⟨hor, hall', hnc', hnm'⟩
          refine ⟨hall', ?_, hnm'⟩
          rw [hchosen']
          rintro (hc | hkr)
          · exact hnc' hc
          · rcases hor with hmr | hkr'
            · exact hnm' (by rw [hkr, ← hmr])
            · exact hkr' hkr
        · rintro ⟨hall', hnc', hnm'⟩
          rw [hchosen'] at hnc'
          push_neg at hnc'
          exact ⟨Or.inr hnc'.2, hall', hnc'.1, hnm'⟩
    · -- ring-break bookkeeping for the last queued name
      intro hrl m hm
      rcases hlastnew hrl m hm with hc | hmr
      · rw [List.map_append]
        exact List.mem_append.mpr (Or.inl hc)
      · subst hmr
        rw [List.map_append]
        simp

theorem collectJsons_ok :
    ∀ (l : List String) (ps : StrMap SecretSantaParticipant),
      (∀ n ∈ l, (ps.get n).isSome) →
      ∃ js, collectJsons ps l = .ok js ∧
        ∀ rec ∈ js, ∃ p : SecretSantaParticipant, rec = p.toJSON := by
  intro l
  induction l with
  | nil => intro ps _; exact ⟨[], rfl, fun rec h => absurd h (List.not_mem_nil rec)⟩
  | cons n rest ih =>
    intro ps hsome
    have h1 := hsome n (List.mem_cons_self _ _)
    rcases hp : ps.get n with _ | p
    · rw [hp] at h1; simp at h1
    · obtain ⟨js, hjs, hmem⟩ := ih ps (fun m hm => hsome m (List.mem_cons_of_mem _ hm))
      refine ⟨p.toJSON :: js, ?_, ?_⟩
      · show (match ps.get n with
          | none => (Except.error Err.missingParticipant : Except Err (List StateRecord))
          | some p =>
            match collectJsons ps rest with
            | Except.error e => Except.error e
            | Except.ok l => Except.ok (p.toJSON :: l)) = _
        rw [hp, hjs]
      · intro rec hrec
        rcases List.mem_cons.mp hrec with rfl | hrec'
        · exact ⟨p, rfl⟩
        · exact hmem rec hrec'

/-- Spec §3/§4.3 precondition on a group about to draw: unique names, and each
participant's sampler well-formed and populated with exactly the other
participants. -/
def GroupReady (g : SecretSanta) : Prop :=
  g.names.Nodup ∧
  ∀ n ∈ g.names, ∃ p, g.participants.get n = some p ∧ HatWF p.hat ∧
    ∀ k, k ∈ p.hat.ids ↔ (k ∈ g.names ∧ k ≠ n)

/-- Master correctness lemma for `SecretSanta.draw`: for a ready group of at
least two participants and any shuffle and randomness, the draw succeeds, the
choosers are the queue in order, the recipients are a permutation of the
names, no one is paired with themselves, and the persisted state is the
non-destructive merge of the participants' fresh serializations. -/
theorem secretSanta_draw_master (g : SecretSanta) (shuffled : List String)
    (rand : Nat → ℚ) (hready : GroupReady g) (hperm : shuffled.Perm g.names)
    (h2 : 2 ≤ g.names.length) :
    ∃ pairs ps' js, g.draw shuffled rand = .ok (pairs, ⟨shuffled, ps',
        updateStateList g.state js⟩) ∧
      pairs.map Prod.fst = shuffled ∧
      (pairs.map Prod.snd).Perm shuffled ∧
      (∀ pr ∈ pairs, pr.1 ≠ pr.2) ∧
      (∀ rec ∈ js, ∃ p : SecretSantaParticipant, rec = p.toJSON) := by
  obtain ⟨hnd, hpart⟩ := hready
  have hndsh : shuffled.Nodup := (hperm.nodup_iff).mpr hnd
  have hlen : shuffled.length = g.names.length := hperm.length_eq
  obtain ⟨pairsF, psF, hloop, hfst, hndc, hsub, hnfix, hsomeF⟩ :=
    drawLoop_ok rand shuffled hndsh shuffled [] [] g.participants 0 rfl rfl
      (by simp) (by simp) (by simp)
      (by
        intro n hn
        obtain ⟨p, hp, _, _⟩ := hpart n (hperm.mem_iff.mp hn)
        rw [hp]
        rfl)
      (by
        intro n hn
        obtain ⟨p, hp, hwf, hiff⟩ := hpart n (hperm.mem_iff.mp hn)
        refine ⟨p, hp, hwf, ?_⟩
        intro k
        rw [hiff k]
        constructor
        · rintro ⟨hk1, hk2⟩
          exact ⟨hperm.mem_iff.mpr hk1, by simp, hk2⟩
        · rintro ⟨hk1, _, hk2⟩
          exact ⟨hperm.mem_iff.mp hk1, hk2⟩)
      (by
        intro hl1
        omega)
  obtain ⟨js, hjs, hjsmem⟩ := collectJsons_ok shuffled psF hsomeF
  refine ⟨pairsF, psF, js, ?_, hfst, ?_, hnfix, hjsmem⟩
  · show (match drawLoop rand shuffled 0 g.participants [] with
      | Except.error e => (Except.error e :
          Except Err (List (String × String) × SecretSanta))
      | Except.ok (pairs, ps') =>
        match collectJsons ps' shuffled with
        | Except.error e => Except.error e
        | Except.ok jsons =>
          Except.ok (pairs, ⟨shuffled, ps', updateStateList g.state jsons⟩)) = _
    rw [hloop]
    show (match collectJsons psF shuffled with
      | Except.error e => (Except.error e :
          Except Err (List (String × String) × SecretSanta))
      | Except.ok jsons =>
        Except.ok (pairsF, ⟨shuffled, psF, updateStateList g.state jsons⟩)) = _
    rw [hjs]
  · -- recipients are a permutation of the queue
    have hndpairs : (pairsF.map Prod.snd).Nodup := hndc
    have hsubper : List.Subperm (pairsF.map Prod.snd) shuffled :=
      List.subperm_of_subset hndpairs hsub
    have hlenp : pairsF.length = shuffled.length := by
      rw [← hfst, List.length_map]
    apply hsubper.perm_of_length_le
    rw [List.length_map, hlenp]

/-! ## The post-draw bump as a from-scratch rebuild (spec §4.1 step 4) -/

/-- Modelled from the spec: «Every candidate other than the drawn one has its
weight increased by `bump`» — adds `bump` to every weight except the one at
position `p` (positions counted from `i`). -/
def addExcept (bump : Int) (p : Nat) : List Entry → Nat → List Entry
  | [], _ => []
  | e :: rest, i =>
    { e with weight := if i = p then e.weight else e.weight + bump }
      :: addExcept bump p rest (i + 1)

/-- Bumped-position count offset used to align the incremental update with the
from-scratch rebuild. -/
def mcount (p i : Nat) : Int := (i : Int) - (if p < i then 1 else 0)

theorem mcount_head (p i : Nat) :
    (if i < p then (i : Int) + 1 else (i : Int)) = mcount p i + (if i = p then 0 else 1) := by
  rcases Nat.lt_trichotomy i p with h | h | h
  · rw [mcount, if_pos h, if_neg (by omega), if_neg (by omega)]
    push_cast
    ring
  · rw [mcount, if_neg (by omega), if_neg (by omega), if_pos h]
    push_cast
    ring
  · rw [mcount, if_neg (by omega), if_pos h, if_neg (by omega)]
    push_cast
    ring

theorem mcount_step (p i : Nat) :
    mcount p i + (if i = p then 0 else 1) = mcount p (i + 1) := by
  rcases Nat.lt_trichotomy i p with h | h | h
  · rw [mcount, mcount, if_neg (by omega), if_neg (by omega), if_neg (by omega)]
    push_cast
    ring
  · rw [mcount, mcount, if_neg (by omega), if_pos h, if_pos (by omega)]
    push_cast
    ring
  · rw [mcount, mcount, if_pos h, if_neg (by omega), if_pos (by omega)]
    push_cast
    ring

/-- The O(n) incremental cumulative-weight update in `draw` coincides with
re-deriving every prefix sum from scratch after the selective weight bump. -/
theorem bumpElems_eq_recompute (p : Nat) (b : Int) :
    ∀ (es : List Entry) (i : Nat) (c : Int), CumFrom c es →
      bumpElems p b es i =
        (recomputeElems (c + mcount p i * b) (addExcept b p es i)).1 := by
  intro es
  induction es with
  | nil => intro i c _; rfl
  | cons e rest ih =>
    intro i c hcum
    obtain ⟨hce, hrest⟩ := hcum
    show ({ e with
        weight := if i = p then e.weight else e.weight + b,
        cumulativeWeight :=
          e.cumulativeWeight + (if i < p then (i : Int) + 1 else (i : Int)) * b }
        :: bumpElems p b rest (i + 1)) = _
    have hw : (if i = p then e.weight else e.weight + b)
        = e.weight + (if i = p then 0 else 1) * b := by
      by_cases hip : i = p
      · rw [if_pos hip, if_pos hip]; ring
      · rw [if_neg hip, if_neg hip]; ring
    show _ = ({ e with
        weight := if i = p then e.weight else e.weight + b,
        cumulativeWeight :=
          (c + mcount p i * b) + (if i = p then e.weight else e.weight + b) }
        :: (recomputeElems ((c + mcount p i * b) +
            (if i = p then e.weight else e.weight + b)) (addExcept b p rest (i + 1))).1)
    have hcumEq : e.cumulativeWeight + (if i < p then (i : Int) + 1 else (i : Int)) * b
        = (c + mcount p i * b) + (if i = p then e.weight else e.weight + b) := by
      rw [hce, hw, mcount_head]
      ring
    have hconst : (c + mcount p i * b) + (if i = p then e.weight else e.weight + b)
        = (c + e.weight) + mcount p (i + 1) * b := by
      rw [hw, ← mcount_step]
      ring
    rw [hcumEq, hconst]
    rw [ih (i + 1) (c + e.weight) hrest]

theorem addExcept_ids (b : Int) (p : Nat) :
    ∀ (es : List Entry) (i : Nat), (addExcept b p es i).map Entry.id = es.map Entry.id := by
  intro es
  induction es with
  | nil => intro i; rfl
  | cons e rest ih =>
    intro i
    show e.id :: (addExcept b p rest (i + 1)).map Entry.id = _
    rw [ih]
    rfl

theorem addExcept_sum (b : Int) (p : Nat) :
    ∀ (es : List Entry) (i : Nat),
      weightSum (addExcept b p es i) =
        weightSum es + ((es.length : Int) - (if i ≤ p ∧ p < i + es.length then 1 else 0)) * b := by
  intro es
  induction es with
  | nil => intro i; simp [weightSum, addExcept]
  | cons e rest ih =>
    intro i
    show weightSum ({ e with weight := if i = p then e.weight else e.weight + b }
        :: addExcept b p rest (i + 1)) = _
    simp only [weightSum, List.map_cons, List.sum_cons, List.length_cons]
    have hr := ih (i + 1)
    simp only [weightSum] at hr
    rw [hr]
    by_cases hip : i = p
    · have hc1 : ¬ (i + 1 ≤ p ∧ p < i + 1 + rest.length) := by omega
      have hc2 : i ≤ p ∧ p < i + (rest.length + 1) := by omega
      rw [if_pos hip, if_neg hc1, if_pos hc2]
      push_cast
      ring
    · by_cases hrange : i + 1 ≤ p ∧ p < i + 1 + rest.length
      · have hc2 : i ≤ p ∧ p < i + (rest.length + 1) := by omega
        rw [if_neg hip, if_pos hrange, if_pos hc2]
        push_cast
        ring
      · have hc2 : ¬ (i ≤ p ∧ p < i + (rest.length + 1)) := by omega
        rw [if_neg hip, if_neg hrange, if_neg hc2]
        push_cast
        ring

theorem addExcept_weight_mem (b : Int) (p : Nat) :
    ∀ (l : List Entry) (i : Nat), ∀ e1 ∈ addExcept b p l i,
      ∃ e0 ∈ l, e1.weight = e0.weight ∨ e1.weight = e0.weight + b := by
  intro l
  induction l with
  | nil => intro i e1 he1; exact absurd he1 (List.not_mem_nil e1)
  | cons x rest ih =>
    intro i e1 he1
    rcases List.mem_cons.mp he1 with rfl | he1'
    · refine ⟨x, List.mem_cons_self _ _, ?_⟩
      by_cases hip : i = p
      · left
        show (if i = p then x.weight else x.weight + b) = x.weight
        rw [if_pos hip]
      · right
        show (if i = p then x.weight else x.weight + b) = x.weight + b
        rw [if_neg hip]
    · obtain ⟨e0, he0, hcase⟩ := ih (i + 1) e1 he1'
      exact ⟨e0, List.mem_cons_of_mem _ he0, hcase⟩

/-- `draw` preserves the hat invariants. -/
theorem hat_draw_wf {h : Hat} (hw : HatWF h) {u : ℚ} {r : String} {h' : Hat}
    (hok : h.draw u = .ok (r, h')) : HatWF h' := by
  by_cases h0 : h.size = 0
  · rw [hat_draw_empty h u h0] at hok
    exact absurd hok (by simp)
  by_cases h1 : h.size = 1
  · rw [Hat.draw, if_neg h0, if_pos h1] at hok
    have := (Prod.mk.injEq _ _ _ _).mp (Except.ok.inj hok)
    rw [← this.2]
    exact hw
  · rw [Hat.draw, if_neg h0, if_neg h1] at hok
    replace hok : (Except.ok
        ((h.elements.getD (bsearch h.elements (u * (h.size : ℚ)) 0 (h.elements.length - 1))
          ⟨"", 0, 0⟩).id,
         (⟨h.size + ((h.elements.length : Int) - 1)
              * ratCeil ((h.size : ℚ) / (h.elements.length : ℚ)),
           bumpElems (bsearch h.elements (u * (h.size : ℚ)) 0 (h.elements.length - 1))
             (ratCeil ((h.size : ℚ) / (h.elements.length : ℚ))) h.elements 0,
           h.index⟩ : Hat)) : Except Err (String × Hat)) = .ok (r, h') := hok
    have hinj := (Prod.mk.injEq _ _ _ _).mp (Except.ok.inj hok)
    have hlen : 1 ≤ h.elements.length := by
      rcases hes : h.elements with _ | ⟨e, rest⟩
      · rw [hw.size_eq, hes] at h0
        simp [weightSum] at h0
      · simp
    have hszpos : 1 ≤ h.size := by
      rw [hw.size_eq]
      have := length_le_weightSum h.elements hw.pos
      have hlenI : (1 : Int) ≤ (h.elements.length : Int) := by exact_mod_cast hlen
      omega
    have hbump : 1 ≤ ratCeil ((h.size : ℚ) / (h.elements.length : ℚ)) := by
      apply one_le_ratCeil_of_pos
      have hszQ : (1 : ℚ) ≤ (h.size : ℚ) := by exact_mod_cast hszpos
      have hlenQ : (1 : ℚ) ≤ (h.elements.length : ℚ) := by exact_mod_cast hlen
      positivity
    have hplen : bsearch h.elements (u * (h.size : ℚ)) 0 (h.elements.length - 1)
        < h.elements.length := by
      have := bsearch_le h.elements (u * (h.size : ℚ)) 0 (h.elements.length - 1) (by omega)
      omega
    set b := ratCeil ((h.size : ℚ) / (h.elements.length : ℚ)) with hbdef
    set p := bsearch h.elements (u * (h.size : ℚ)) 0 (h.elements.length - 1) with hpdef
    have hrw := bumpElems_eq_recompute p b h.elements 0 0 hw.cum
    have hm0 : mcount p 0 = 0 := by
      rw [mcount, if_neg (by omega)]
      rfl
    rw [hm0, zero_mul, add_zero] at hrw
    obtain ⟨hidR, hwtR, hcumR, hsndR⟩ := recomputeElems_spec (addExcept b p h.elements 0) 0
    rw [← hinj.2]
    refine ⟨?_, ?_, ?_, ?_, ?_⟩
    · -- weights stay positive
      intro e he
      show 1 ≤ e.weight
      have hmem : e ∈ (recomputeElems 0 (addExcept b p h.elements 0)).1 := by
        rw [← hrw]
        exact he
      have hwm : e.weight ∈ (recomputeElems 0 (addExcept b p h.elements 0)).1.map Entry.weight :=
        List.mem_map_of_mem Entry.weight hmem
      rw [hwtR] at hwm
      rcases List.mem_map.mp hwm with ⟨e1, he1, hwe⟩
      obtain ⟨e0, he0, hcase⟩ := addExcept_weight_mem b p h.elements 0 e1 he1
      have h0w := hw.pos e0 he0
      rcases hcase with hc | hc <;> rw [← hwe, hc] <;> omega
    · show CumFrom 0 (bumpElems p b h.elements 0)
      rw [hrw]
      exact hcumR
    · show h.size + ((h.elements.length : Int) - 1) * b = weightSum (bumpElems p b h.elements 0)
      rw [hrw]
      have hws : weightSum (recomputeElems 0 (addExcept b p h.elements 0)).1
          = weightSum (addExcept b p h.elements 0) := by
        simp only [weightSum]
        rw [hwtR]
      rw [hws, addExcept_sum b p h.elements 0]
      rw [if_pos (by omega), hw.size_eq]
    · show ((bumpElems p b h.elements 0).map Entry.id).Nodup
      rw [bumpElems_ids]
      exact hw.nodup
    · intro k
      show h.index.get k = ((bumpElems p b h.elements 0).map Entry.id).findIdx? (fun s => s == k)
      rw [bumpElems_ids]
      exact hw.idx k

/-- `delete` success implies membership, so invariants are preserved. -/
theorem hat_delete_wf {h : Hat} (hw : HatWF h) {id : String} {h' : Hat}
    (hok : h.delete id = .ok h') : HatWF h' := by
  by_cases hhas : h.has id = true
  · have hmem : id ∈ h.ids := by
      have hidx := hw.idx id
      rcases hfi : h.ids.findIdx? (fun x => x == id) with _ | p
      · rw [hfi] at hidx
        rw [Hat.has, hidx] at hhas
        simp at hhas
      · have := findIdx?_some_spec _ _ _ hfi
        exact List.getElem?_mem this
    obtain ⟨h'', heq, hwf'', _⟩ := hat_delete_ok hw hmem
    rw [heq] at hok
    rw [← Except.ok.inj hok]
    exact hwf''
  · rw [hat_delete_missing h id (by simpa using hhas)] at hok
    exact absurd hok (by simp)

/-- `set` success re-establishes the average-weight bound (spec §4.1):
`size ≤ 9999 × count` after every insert. -/
theorem hat_set_bound {h : Hat} {id : String} {w : Int} {h' : Hat}
    (hok : h.set id w = .ok h') : h'.size ≤ 9999 * (h'.elements.length : Int) := by
  rcases hhas : h.has id with _ | _
  · rw [hat_set_ok hhas] at hok
    rw [← Except.ok.inj hok]
    have := downscale_post ⟨h.size + w, h.elements ++ [⟨id, w, h.size + w⟩],
      h.index.set id h.elements.length⟩
    omega
  · rw [hat_set_dup h id w hhas] at hok
    exact absurd hok (by simp)

/-- The normalisation loop of `choose` ends with every weight at most 9999. -/
theorem normWeights_post : ∀ l : List Recipient, ∀ r ∈ normWeights l, r.weight ≤ 9999
  | l => by
    rw [normWeights]
    split
    · exact normWeights_post (l.map (fun r => { r with weight := tenth r.weight }))
    · rename_i hany
      intro r hr
      have := List.any_eq_false.mp (Bool.eq_false_iff.mpr hany) r hr
      simpa using this
termination_by l => weightNatSum l
decreasing_by exact weightNatSum_step_lt l (by assumption)

/-- After `choose`, every persisted recipient weight is at most 9999. -/
theorem choose_weight_bound (p : SecretSantaParticipant) (name : String) :
    ∀ r ∈ (p.choose name).stats.recipients, r.weight ≤ 9999 := by
  intro r hr
  have : (p.choose name).stats.recipients = normWeights (p.stats.recipients.map (fun r =>
      if r.name = name then { r with frequency := r.frequency + 1 }
      else { r with weight := r.weight + p.stats.meanRecipientWeight })) := rfl
  rw [this] at hr
  exact normWeights_post _ r hr

/-- `choose` never touches the stats fields outside its schema. -/
theorem choose_stats_extra (p : SecretSantaParticipant) (name : String) :
    (p.choose name).stats.extra = p.stats.extra := rfl

/-! ## Group-level bookkeeping -/

/-- Adding a batch of participants one by one (the collaborator-facing usage
of `addParticipant` when reconstructing a group from persisted state). -/
def addAll (g : SecretSanta) : List String → Except Err SecretSanta
  | [] => .ok g
  | n :: rest =>
    match g.addParticipant n with
    | .error e => .error e
    | .ok g' => addAll g' rest

theorem addParticipant_state {g : SecretSanta} {name : String} {g' : SecretSanta}
    (h : g.addParticipant name = .ok g') : g'.state = g.state := by
  rw [SecretSanta.addParticipant] at h
  split at h
  · exact absurd h (by simp)
  · split at h
    · exact absurd h (by simp)
    · rw [← Except.ok.inj h]

theorem addAll_state :
    ∀ (l : List String) (g g' : SecretSanta), addAll g l = .ok g' → g'.state = g.state := by
  intro l
  induction l with
  | nil =>
    intro g g' h
    rw [← Except.ok.inj h]
  | cons n rest ih =>
    intro g g' h
    rw [addAll] at h
    rcases hcall : g.addParticipant n with e | g1
    · rw [hcall] at h
      exact absurd h (by simp)
    · rw [hcall] at h
      have h' : addAll g1 rest = .ok g' := h
      rw [ih g1 g' h', addParticipant_state hcall]

theorem removeParticipant_state {g : SecretSanta} {name : String} {g' : SecretSanta}
    (h : g.removeParticipant name = .ok g') : g'.state = g.state := by
  rw [SecretSanta.removeParticipant] at h
  split at h
  · exact absurd h (by simp)
  · split at h
    · exact absurd h (by simp)
    · rw [← Except.ok.inj h]

/-- The cascade loop of `removeParticipant` removes the name from every
remaining hat and changes nothing else. -/
theorem removePartLoop_ok (name : String) :
    ∀ (l : List String) (ps : StrMap SecretSantaParticipant),
      l.Nodup →
      (∀ n ∈ l, ∃ p, ps.get n = some p ∧ HatWF p.hat ∧ name ∈ p.hat.ids) →
      ∃ ps', removePartLoop name l ps = .ok ps' ∧
        (∀ k, k ∉ l → ps'.get k = ps.get k) ∧
        (∀ n ∈ l, ∃ p p', ps.get n = some p ∧ ps'.get n = some p' ∧
          p'.stats = p.stats ∧ p'.name = p.name ∧ HatWF p'.hat ∧ name ∉ p'.hat.ids) := by
  intro l
  induction l with
  | nil =>
    intro ps _ _
    exact ⟨ps, rfl, fun k _ => rfl, fun n hn => absurd hn (List.not_mem_nil n)⟩
  | cons n rest ih =>
    intro ps hnd hinv
    obtain ⟨hnr, hndr⟩ := List.nodup_cons.mp hnd
    obtain ⟨p, hp, hwfp, hmem⟩ := hinv n (List.mem_cons_self _ _)
    obtain ⟨p', hrem, hst, hnm, hwf', hids'⟩ := removeRecipient_ok hwfp hmem
    have hinvr : ∀ m ∈ rest, ∃ q, (ps.set n p').get m = some q ∧ HatWF q.hat ∧
        name ∈ q.hat.ids := by
      intro m hm
      have hmn : m ≠ n := fun hmn => hnr (hmn ▸ hm)
      obtain ⟨q, hq, hrest⟩ := hinv m (List.mem_cons_of_mem _ hm)
      refine ⟨q, ?_, hrest⟩
      rw [← hq]
      simp only [StrMap.set, StrMap.get]
      rw [if_neg hmn]
    obtain ⟨ps', heq, hframe, hmemr⟩ := ih (ps.set n p') hndr hinvr
    refine ⟨ps', ?_, ?_, ?_⟩
    · show removePartLoop name (n :: rest) ps = .ok ps'
      show (match ps.get n with
        | none => (Except.error Err.missingParticipant :
            Except Err (StrMap SecretSantaParticipant))
        | some q =>
          match q.removeRecipient name with
          | Except.error e => Except.error e
          | Except.ok q' => removePartLoop name rest (ps.set n q')) = .ok ps'
      rw [hp]
      show (match p.removeRecipient name with
        | Except.error e => (Except.error e :
            Except Err (StrMap SecretSantaParticipant))
        | Except.ok q' => removePartLoop name rest (ps.set n q')) = .ok ps'
      rw [hrem]
      exact heq
    · intro k hk
      have hk1 : k ∉ rest := fun hk' => hk (List.mem_cons_of_mem _ hk')
      have hk2 : k ≠ n := fun hk' => hk (hk' ▸ List.mem_cons_self _ _)
      rw [hframe k hk1]
      simp only [StrMap.set, StrMap.get]
      rw [if_neg hk2]
    · intro m hm
      rcases List.mem_cons.mp hm with rfl | hm'
      · refine ⟨p, p', hp, ?_, hst, hnm, hwf', ?_⟩
        · rw [hframe m hnr]
          simp [StrMap.set, StrMap.get]
        · rw [hids']
          exact (hwfp.nodup).not_mem_erase
      · obtain ⟨q, q', hq, hq', hrest⟩ := hmemr m hm'
        have hmn : m ≠ n := fun hmn => hnr (hmn ▸ hm')
        refine ⟨q, q', ?_, hq', hrest⟩
        rw [← hq]
        simp only [StrMap.set, StrMap.get]
        rw [if_neg hmn]

/-! ## Non-destructive merge (`updateState`) -/

theorem upsert_keep (key : α → String) (l : List α) (x y : α)
    (hy : y ∈ l) (hne : key y ≠ key x) : y ∈ upsert key l x := by
  rw [upsert]
  split
  · refine List.mem_map.mpr ⟨y, hy, ?_⟩
    rw [if_neg hne]
  · exact List.mem_append.mpr (Or.inl hy)

theorem upsert_sub (key : α → String) (l : List α) (x y : α)
    (hy : y ∈ upsert key l x) : y ∈ l ∨ y = x := by
  rw [upsert] at hy
  split at hy
  · rcases List.mem_map.mp hy with ⟨z, hz, hzy⟩
    by_cases hzz : key z = key x
    · rw [if_pos hzz] at hzy
      right
      exact hzy.symm
    · rw [if_neg hzz] at hzy
      left
      exact hzy ▸ hz
  · rcases List.mem_append.mp hy with h1 | h2
    · left
      exact h1
    · right
      simpa using h2

theorem foldl_upsert_sub (key : α → String) :
    ∀ (l acc : List α) (y : α), y ∈ l.foldl (fun a x => upsert key a x) acc →
      y ∈ acc ∨ y ∈ l := by
  intro l
  induction l with
  | nil =>
    intro acc y hy
    left
    exact hy
  | cons x rest ih =>
    intro acc y hy
    rcases ih (upsert key acc x) y hy with h1 | h2
    · rcases upsert_sub key acc x y h1 with h3 | h4
      · left
        exact h3
      · right
        rw [h4]
        exact List.mem_cons_self _ _
    · right
      exact List.mem_cons_of_mem _ h2

theorem foldl_upsert_keep (key : α → String) :
    ∀ (l acc : List α) (y : α), y ∈ acc → (∀ x ∈ l, key y ≠ key x) →
      y ∈ l.foldl (fun a x => upsert key a x) acc := by
  intro l
  induction l with
  | nil =>
    intro acc y hy _
    exact hy
  | cons x rest ih =>
    intro acc y hy hne
    exact ih (upsert key acc x) y
      (upsert_keep key acc x y hy (hne x (List.mem_cons_self _ _)))
      (fun z hz => hne z (List.mem_cons_of_mem _ hz))

theorem foldl_upsert_self (key : α → String) :
    ∀ (l acc : List α), ((acc ++ l).map key).Nodup →
      l.foldl (fun a x => upsert key a x) acc = acc ++ l := by
  intro l
  induction l with
  | nil =>
    intro acc _
    rw [List.foldl_nil, List.append_nil]
  | cons x rest ih =>
    intro acc hnd
    have hxnot : (acc.any (fun y => key y == key x)) = false := by
      rw [List.any_eq_false]
      intro y hy hkeyb
      have hkey : key y = key x := by simpa using hkeyb
      rw [List.map_append] at hnd
      have h1 : key y ∈ acc.map key := List.mem_map_of_mem key hy
      have h2 : key x ∈ (x :: rest).map key := by simp
      have := (List.nodup_append.mp hnd).2.2
      exact this h1 (by rw [hkey]; exact h2)
    have hup : upsert key acc x = acc ++ [x] := by
      rw [upsert, if_neg (by simp [hxnot])]
    show List.foldl (fun a x => upsert key a x) (upsert key acc x) rest = acc ++ x :: rest
    rw [hup, ih (acc ++ [x]) (by simpa using hnd)]
    simp

theorem updateStateList_keep {old upd : List StateRecord}
    (hnd : (old.map StateRecord.name).Nodup) {rec : StateRecord} (hmem : rec ∈ old)
    (hnot : ∀ x ∈ upd, rec.name ≠ x.name) : rec ∈ updateStateList old upd := by
  rw [updateStateList]
  have hself : old.foldl (fun a r => upsert StateRecord.name a r) [] = old := by
    have := foldl_upsert_self StateRecord.name old []
    simpa using this hnd
  rw [hself]
  exact foldl_upsert_keep StateRecord.name upd old rec hmem hnot

theorem updateStateList_sub {old upd : List StateRecord} {rec : StateRecord}
    (hmem : rec ∈ updateStateList old upd) : rec ∈ old ∨ rec ∈ upd := by
  rw [updateStateList] at hmem
  rcases foldl_upsert_sub StateRecord.name upd _ rec hmem with h1 | h2
  · rcases foldl_upsert_sub StateRecord.name old [] rec h1 with h3 | h4
    · exact absurd h3 (List.not_mem_nil rec)
    · exact Or.inl h4
  · exact Or.inr h2

theorem collectJsons_mem :
    ∀ (l : List String) (ps : StrMap SecretSantaParticipant) (js : List StateRecord),
      collectJsons ps l = .ok js →
      ∀ rec ∈ js, ∃ p : SecretSantaParticipant, rec = p.toJSON := by
  intro l
  induction l with
  | nil =>
    intro ps js h rec hrec
    have : js = [] := by
      have := Except.ok.inj h
      exact this.symm
    rw [this] at hrec
    exact absurd hrec (List.not_mem_nil rec)
  | cons n rest ih =>
    intro ps js h rec hrec
    rw [collectJsons] at h
    split at h
    · exact absurd h (by simp)
    · rename_i p hp
      split at h
      · exact absurd h (by simp)
      · rename_i l' hl'
        rw [← Except.ok.inj h] at hrec
        rcases List.mem_cons.mp hrec with rfl | hrec'
        · exact ⟨p, rfl⟩
        · exact ih ps l' hl' rec hrec'

/-- Inversion of a successful `draw`: its pieces and the final state shape. -/
theorem draw_ok_inv {g : SecretSanta} {shuffled : List String} {rand : Nat → ℚ}
    {pairs : List (String × String)} {g' : SecretSanta}
    (h : g.draw shuffled rand = .ok (pairs, g')) :
    ∃ ps' js, drawLoop rand shuffled 0 g.participants [] = .ok (pairs, ps') ∧
      collectJsons ps' shuffled = .ok js ∧
      g' = ⟨shuffled, ps', updateStateList g.state js⟩ := by
  rw [SecretSanta.draw] at h
  split at h
  · exact absurd h (by simp)
  · rename_i pairs2 ps2 hloop
    split at h
    · exact absurd h (by simp)
    · rename_i js hjs
      have hinj := (Prod.mk.injEq _ _ _ _).mp (Except.ok.inj h)
      refine ⟨ps2, js, ?_, hjs, hinj.2.symm⟩
      rw [hloop, hinj.1]

/-! ## Concrete instances used to exercise the theorems -/

/-- A hat holding the single candidate `"b"` with weight 1. -/
def hatOnlyB : Hat := ⟨1, [⟨"b", 1, 1⟩], StrMap.empty.set "b" 0⟩

/-- A hat holding the single candidate `"a"` with weight 1. -/
def hatOnlyA : Hat := ⟨1, [⟨"a", 1, 1⟩], StrMap.empty.set "a" 0⟩

/-- A two-person group (`"a"` and `"b"`), each with the other in their hat. -/
def groupAB : SecretSanta :=
  ⟨["a", "b"],
   (StrMap.empty.set "a" ⟨"a", defaultStats, hatOnlyB⟩).set "b" ⟨"b", defaultStats, hatOnlyA⟩,
   []⟩

theorem hatOnlyB_wf : HatWF hatOnlyB := by
  refine ⟨by decide, by decide, by decide, by decide, ?_⟩
  intro k
  show (StrMap.empty.set "b" 0).get k = (["b"].findIdx? (fun s => s == k))
  by_cases hk : k = "b"
  · subst hk
    simp [StrMap.set, StrMap.get, List.findIdx?_cons]
  · simp only [StrMap.set, StrMap.get, StrMap.empty]
    rw [if_neg hk, List.findIdx?_cons]
    rw [if_neg (by simpa using fun hc => hk hc.symm)]
    rfl

theorem hatOnlyA_wf : HatWF hatOnlyA := by
  refine ⟨by decide, by decide, by decide, by decide, ?_⟩
  intro k
  show (StrMap.empty.set "a" 0).get k = (["a"].findIdx? (fun s => s == k))
  by_cases hk : k = "a"
  · subst hk
    simp [StrMap.set, StrMap.get, List.findIdx?_cons]
  · simp only [StrMap.set, StrMap.get, StrMap.empty]
    rw [if_neg hk, List.findIdx?_cons]
    rw [if_neg (by simpa using fun hc => hk hc.symm)]
    rfl

theorem groupAB_ready : GroupReady groupAB := by
  refine ⟨by decide, ?_⟩
  intro n hn
  have hn' : n = "a" ∨ n = "b" := by simpa [groupAB] using hn
  rcases hn' with rfl | rfl
  · refine ⟨⟨"a", defaultStats, hatOnlyB⟩, ?_, hatOnlyB_wf, ?_⟩
    · simp [groupAB, StrMap.set, StrMap.get]
    · intro k
      show k ∈ ["b"] ↔ (k ∈ ["a", "b"] ∧ k ≠ "a")
      constructor
      · intro hk
        have : k = "b" := by simpa using hk
        subst this
        exact ⟨by decide, by decide⟩
      · rintro ⟨hk1, hk2⟩
        have : k = "a" ∨ k = "b" := by simpa using hk1
        rcases this with rfl | rfl
        · exact absurd rfl hk2
        · simp
  · refine ⟨⟨"b", defaultStats, hatOnlyA⟩, ?_, hatOnlyA_wf, ?_⟩
    · simp [groupAB, StrMap.set, StrMap.get]
    · intro k
      show k ∈ ["a"] ↔ (k ∈ ["a", "b"] ∧ k ≠ "b")
      constructor
      · intro hk
        have : k = "a" := by simpa using hk
        subst this
        exact ⟨by decide, by decide⟩
      · rintro ⟨hk1, hk2⟩
        have : k = "a" ∨ k = "b" := by simpa using hk1
        rcases this with rfl | rfl
        · simp
        · exact absurd rfl hk2

/-! ## Claims -/

/-- **C1** For every group of `n ≥ 2` participants (each participant's sampler
populated with every other participant and never with itself), the list of
pairs returned by a successful `draw()` is a permutation of the participant
names — every name appears exactly once as a chooser and exactly once as a
recipient — and has no fixed points: no pair has `name` equal to
`recipient`. -/
theorem secretSanta_draw_derangement (g : SecretSanta) (shuffled : List String)
    (rand : Nat → ℚ) (hready : GroupReady g) (hperm : shuffled.Perm g.names)
    (h2 : 2 ≤ g.names.length) :
    ∃ pairs g', g.draw shuffled rand = .ok (pairs, g') ∧
      (pairs.map Prod.fst).Perm g.names ∧
      (pairs.map Prod.snd).Perm g.names ∧
      ∀ pr ∈ pairs, pr.1 ≠ pr.2 := by
  obtain ⟨pairs, ps', js, hdraw, hfst, hsnd, hnfix, _⟩ :=
    secretSanta_draw_master g shuffled rand hready hperm h2
  refine ⟨pairs, _, hdraw, ?_, hsnd.trans hperm, hnfix⟩
  rw [hfst]
  exact hperm

/-- Witness for C1: a concrete two-person group draws a derangement. -/
theorem secretSanta_draw_derangement_witness :
    ∃ pairs g', groupAB.draw ["a", "b"] (fun _ => 0) = .ok (pairs, g') ∧
      (pairs.map Prod.fst).Perm groupAB.names ∧
      (pairs.map Prod.snd).Perm groupAB.names ∧
      ∀ pr ∈ pairs, pr.1 ≠ pr.2 :=
  secretSanta_draw_derangement groupAB ["a", "b"] (fun _ => 0) groupAB_ready
    (List.Perm.refl _) (by decide)

/-- **C2** For every group of `n ≥ 2` participants, every `draw()` call
terminates with each participant assigned exactly one recipient: at no
position of the shuffled queue is the sampler drawn from empty (the
`EmptySampler` error branch of the sampler's `draw` is unreachable during a
group draw), the ring-break rule at position `n−2` forcing the last queued
name when it has not yet been chosen. -/
theorem secretSanta_draw_no_empty (g : SecretSanta) (shuffled : List String)
    (rand : Nat → ℚ) (hready : GroupReady g) (hperm : shuffled.Perm g.names)
    (h2 : 2 ≤ g.names.length) :
    ∃ pairs g', g.draw shuffled rand = .ok (pairs, g') ∧
      pairs.map Prod.fst = shuffled := by
  obtain ⟨pairs, ps', js, hdraw, hfst, _, _, _⟩ :=
    secretSanta_draw_master g shuffled rand hready hperm h2
  exact ⟨pairs, _, hdraw, hfst⟩

/-- Witness for C2. -/
theorem secretSanta_draw_no_empty_witness :
    ∃ pairs g', groupAB.draw ["a", "b"] (fun _ => 0) = .ok (pairs, g') ∧
      pairs.map Prod.fst = ["a", "b"] :=
  secretSanta_draw_no_empty groupAB ["a", "b"] (fun _ => 0) groupAB_ready
    (List.Perm.refl _) (by decide)

/-- A two-entry hat used to exercise the sampler theorems. -/
def hatAB2 : Hat := ⟨3, [⟨"a", 1, 1⟩, ⟨"b", 2, 3⟩], (StrMap.empty.set "a" 0).set "b" 1⟩

theorem hatAB2_wf : HatWF hatAB2 := by
  refine ⟨by decide, by decide, by decide, by decide, ?_⟩
  intro k
  show ((StrMap.empty.set "a" 0).set "b" 1).get k = (["a", "b"].findIdx? (fun s => s == k))
  by_cases hka : k = "a"
  · subst hka
    simp [StrMap.set, StrMap.get, List.findIdx?_cons]
  · by_cases hkb : k = "b"
    · subst hkb
      simp [StrMap.set, StrMap.get, List.findIdx?_cons]
    · simp only [StrMap.set, StrMap.get, StrMap.empty]
      rw [if_neg hkb, if_neg hka]
      rw [List.findIdx?_cons, if_neg (by simpa using fun hc => hka hc.symm)]
      rw [List.findIdx?_start_succ]
      rw [List.findIdx?_cons, if_neg (by simpa using fun hc => hkb hc.symm)]
      rfl

/-- **C3** After every sampler operation among insert, remove, draw, and
rescale (each applied to a sampler satisfying the data-model invariants), the
sequence of `cumulativeWeight` values over the entries is strictly increasing
and the last entry's `cumulativeWeight` equals `size`.  (Insert requires a
positive weight and rescale a positive factor, as the data model's weights are
positive integers.) -/
theorem sampler_cumulative_invariant (h : Hat) (hw : HatWF h) :
    (∀ (id : String) (w : Int) (h' : Hat), 1 ≤ w → h.set id w = .ok h' → CumOK h') ∧
    (∀ (id : String) (h' : Hat), h.delete id = .ok h' → CumOK h') ∧
    (∀ (u : ℚ) (r : String) (h' : Hat), h.draw u = .ok (r, h') → CumOK h') ∧
    (∀ factor : ℚ, 0 < factor → CumOK (h.scale factor)) := by
  refine ⟨?_, ?_, ?_, ?_⟩
  · intro id w h' hwpos hok
    rcases hhas : h.has id with _ | _
    · exact hatWF_cumOK (hat_set_wf hw hhas hwpos hok)
    · rw [hat_set_dup h id w hhas] at hok
      exact absurd hok (by simp)
  · intro id h' hok
    exact hatWF_cumOK (hat_delete_wf hw hok)
  · intro u r h' hok
    exact hatWF_cumOK (hat_draw_wf hw hok)
  · intro factor hf
    exact hatWF_cumOK (scale_wf hw hf)

/-- Witness for C3: the invariant holds concretely after a rescale. -/
theorem sampler_cumulative_invariant_witness : CumOK (hatAB2.scale (1/10)) :=
  (sampler_cumulative_invariant hatAB2 hatAB2_wf).2.2.2 (1/10) (by norm_num)

/-- **C5** For every sampler with more than one entry (satisfying the data
model) and drawn position `p`, the post-draw incremental update used by
`draw` — `bumpElems`, adding `bump × (position+1)` to `cumulativeWeight`
before `p` and `bump × position` at or after `p`, with
`bump = ceil(size/count)` — yields exactly the same entries (weights and
cumulative sums) and size as re-deriving all prefix sums from scratch after
adding `bump` to the weight of every entry other than the one at `p`. -/
theorem draw_incremental_update_equiv (h : Hat) (hw : HatWF h) (p : Nat)
    (hlen : 1 < h.elements.length) (hp : p < h.elements.length) :
    bumpElems p (ratCeil ((h.size : ℚ) / (h.elements.length : ℚ))) h.elements 0 =
      (recomputeElems 0
        (addExcept (ratCeil ((h.size : ℚ) / (h.elements.length : ℚ))) p h.elements 0)).1 ∧
    h.size + ((h.elements.length : Int) - 1)
        * ratCeil ((h.size : ℚ) / (h.elements.length : ℚ)) =
      (recomputeElems 0
        (addExcept (ratCeil ((h.size : ℚ) / (h.elements.length : ℚ))) p h.elements 0)).2 := by
  set b := ratCeil ((h.size : ℚ) / (h.elements.length : ℚ)) with hbdef
  constructor
  · have hrw := bumpElems_eq_recompute p b h.elements 0 0 hw.cum
    have hm0 : mcount p 0 = 0 := by
      rw [mcount, if_neg (by omega)]
      rfl
    rw [hm0, zero_mul, add_zero] at hrw
    exact hrw
  · obtain ⟨_, hwtR, _, hsndR⟩ := recomputeElems_spec (addExcept b p h.elements 0) 0
    rw [hsndR, addExcept_sum b p h.elements 0, if_pos (by omega), hw.size_eq]
    ring

/-- Witness for C5 at a concrete two-entry hat and position 0. -/
theorem draw_incremental_update_equiv_witness :
    bumpElems 0 (ratCeil ((hatAB2.size : ℚ) / (hatAB2.elements.length : ℚ)))
        hatAB2.elements 0 =
      (recomputeElems 0
        (addExcept (ratCeil ((hatAB2.size : ℚ) / (hatAB2.elements.length : ℚ)))
          0 hatAB2.elements 0)).1 ∧
    hatAB2.size + ((hatAB2.elements.length : Int) - 1)
        * ratCeil ((hatAB2.size : ℚ) / (hatAB2.elements.length : ℚ)) =
      (recomputeElems 0
        (addExcept (ratCeil ((hatAB2.size : ℚ) / (hatAB2.elements.length : ℚ)))
          0 hatAB2.elements 0)).2 :=
  draw_incremental_update_equiv hatAB2 hatAB2_wf 0 (by decide) (by decide)

/-- **C7** For every participant and every chosen recipient name: if the
participant's `previousRecipient` equals the newly chosen name then
`choose(name)` increments `recipientRepeatFrequency` by exactly 1, otherwise
`recipientRepeatFrequency` is unchanged; in both cases `previousRecipient` is
set to the chosen name afterward. -/
theorem choose_repeat_tracking (p : SecretSantaParticipant) (name : String) :
    (p.choose name).stats.recipientRepeatFrequency
        = p.stats.recipientRepeatFrequency
          + (if p.stats.previousRecipient = name then 1 else 0) ∧
    (p.choose name).stats.previousRecipient = name := by
  constructor
  · show (if p.stats.previousRecipient = name
        then p.stats.recipientRepeatFrequency + 1
        else p.stats.recipientRepeatFrequency) = _
    by_cases hprev : p.stats.previousRecipient = name
    · rw [if_pos hprev, if_pos hprev]
    · rw [if_neg hprev, if_neg hprev, add_zero]
  · rfl

/-- A one-person group whose sole participant has an empty hat. -/
def groupSolo : SecretSanta :=
  ⟨["a"], StrMap.empty.set "a" ⟨"a", defaultStats, Hat.empty⟩, []⟩

/-- **C8** For every persisted group state `s`, constructing a group from `s`
(and adding its participants) and serializing it without any intervening draw
yields statistics identical to `s`, and repeating the construct-then-serialize
step on that output yields the same result again (the round-trip is
idempotent). -/
theorem state_roundtrip_idempotent (s : List StateRecord) (names : List String)
    (g1 : SecretSanta) (h : addAll (SecretSanta.new s) names = .ok g1) :
    g1.toJSON = s ∧ addAll (SecretSanta.new g1.toJSON) names = .ok g1 := by
  have hstate := addAll_state names (SecretSanta.new s) g1 h
  have hjson : g1.toJSON = s := by
    rw [SecretSanta.toJSON, hstate]
    rfl
  refine ⟨hjson, ?_⟩
  rw [hjson]
  exact h

/-- Witness for C8: one participant, empty prior state. -/
theorem state_roundtrip_idempotent_witness :
    groupSolo.toJSON = [] ∧ addAll (SecretSanta.new groupSolo.toJSON) ["a"] = .ok groupSolo :=
  state_roundtrip_idempotent [] ["a"] groupSolo rfl

/-- **C6** Error characterisation: inserting a duplicate key fails with the
key error, inserting a fresh key succeeds; removing a missing key fails with
the not-found error, removing a present key succeeds; drawing from a sampler
of size 0 fails with the empty-sampler error, drawing from one of nonzero
size succeeds; and the errors propagate to the caller unchanged: the hat's
not-found error aborts `removeRecipient`, and the empty-sampler error raised
inside the group draw's per-participant hat draw aborts `SecretSanta.draw`,
both surfacing unchanged. -/
theorem sampler_error_characterisation (h : Hat) (id : String) (w : Int)
    (u : ℚ) (g : SecretSanta) (n : String) (p : SecretSantaParticipant)
    (rand : Nat → ℚ) :
    (h.has id = true → h.set id w = .error .duplicateKey) ∧
    (h.has id = false → (h.set id w).isOk) ∧
    (h.has id = false → h.delete id = .error .notFound) ∧
    (h.has id = true → (h.delete id).isOk) ∧
    (h.size = 0 → h.draw u = .error .emptySampler) ∧
    (h.size ≠ 0 → (h.draw u).isOk) ∧
    (p.hat.has id = false → p.removeRecipient id = .error .notFound) ∧
    (g.participants.get n = some p → p.hat.size = 0 →
      g.draw [n] rand = .error .emptySampler) := by
  refine ⟨hat_set_dup h id w, hat_set_isOk h id w, hat_delete_missing h id,
    hat_delete_isOk h id, hat_draw_empty h u, hat_draw_isOk h u, ?_, ?_⟩
  · intro hd
    rw [SecretSantaParticipant.removeRecipient,
      hat_delete_missing p.hat id hd]
  intro hp h0
  have hloop : drawLoop rand [n] 0 g.participants [] = .error .emptySampler := by
    rw [drawLoop]
    simp only [hp]
    rw [hat_draw_empty p.hat (rand 0) h0]
    rfl
  rw [SecretSanta.draw, hloop]

/-- Witness for C6: concrete duplicate-key insert and empty-hat group draw. -/
theorem sampler_error_characterisation_witness :
    hatOnlyB.set "b" 5 = .error .duplicateKey ∧
    groupSolo.draw ["a"] (fun _ => 0) = .error .emptySampler := by
  have hget : groupSolo.participants.get "a"
      = some ⟨"a", defaultStats, Hat.empty⟩ := by
    show (StrMap.empty.set "a"
        (⟨"a", defaultStats, Hat.empty⟩ : SecretSantaParticipant)).get "a"
      = some ⟨"a", defaultStats, Hat.empty⟩
    simp [StrMap.set, StrMap.get]
  exact ⟨(sampler_error_characterisation hatOnlyB "b" 5 0 groupSolo "a"
      ⟨"a", defaultStats, Hat.empty⟩ (fun _ => 0)).1 (by decide),
    (sampler_error_characterisation hatOnlyB "b" 5 0 groupSolo "a"
      ⟨"a", defaultStats, Hat.empty⟩ (fun _ => 0)).2.2.2.2.2.2.2 hget rfl⟩

/-- **C10** `removeParticipant` on a present name succeeds and never modifies
the persisted state: the new group's `state` (hence its serialization
`toJSON`) is identical to the old one; the name is removed from the roster
and from the participants map; and every remaining participant keeps its
statistics unchanged, with only the removed name deleted from its hat. -/
theorem removeParticipant_frame (g : SecretSanta) (name : String)
    (hready : GroupReady g) (hmem : name ∈ g.names) :
    ∃ g', g.removeParticipant name = .ok g' ∧
      g'.state = g.state ∧ g'.toJSON = g.toJSON ∧
      g'.names = g.names.filter (fun n => n ≠ name) ∧
      g'.participants.get name = none ∧
      ∀ n ∈ g'.names, ∃ p p', g.participants.get n = some p ∧
        g'.participants.get n = some p' ∧ p'.stats = p.stats ∧
        name ∉ p'.hat.ids := by
  obtain ⟨hnd, hinv⟩ := hready
  obtain ⟨pn, hpn, _⟩ := hinv name hmem
  have hndf : (g.names.filter (fun n => n ≠ name)).Nodup := hnd.filter _
  have hinvf : ∀ n ∈ g.names.filter (fun n => n ≠ name),
      ∃ p, (g.participants.del name).get n = some p ∧ HatWF p.hat ∧
        name ∈ p.hat.ids := by
    intro n hn
    obtain ⟨hng, hnne⟩ := List.mem_filter.mp hn
    have hne : n ≠ name := by simpa using hnne
    obtain ⟨p, hp, hwfp, hiff⟩ := hinv n hng
    refine ⟨p, ?_, hwfp, (hiff name).mpr ⟨hmem, fun hc => hne hc.symm⟩⟩
    show (if n = name then none else g.participants.get n) = some p
    rw [if_neg hne]
    exact hp
  obtain ⟨ps', hloop, hframe, hmemr⟩ :=
    removePartLoop_ok name (g.names.filter (fun n => n ≠ name))
      (g.participants.del name) hndf hinvf
  refine ⟨⟨g.names.filter (fun n => n ≠ name), ps', g.state⟩, ?_, rfl, rfl,
    rfl, ?_, ?_⟩
  · rw [SecretSanta.removeParticipant,
      if_neg (by simp [SecretSanta.hasName, hpn]), hloop]
  · have hnf : name ∉ g.names.filter (fun n => n ≠ name) := by
      intro hc
      have hcontra : name ≠ name := by
        simpa using (List.mem_filter.mp hc).2
      exact hcontra rfl
    rw [hframe name hnf]
    show (if name = name then none else g.participants.get name) = none
    rw [if_pos rfl]
  · intro n hn
    obtain ⟨p, p', hp, hp', hst, _, _, hids⟩ := hmemr n hn
    have hne : n ≠ name := by
      simpa using (List.mem_filter.mp hn).2
    refine ⟨p, p', ?_, hp', hst, hids⟩
    rw [← hp]
    show g.participants.get n = (if n = name then none else g.participants.get n)
    rw [if_neg hne]

/-- Witness for C10 at the concrete two-person group, removing `"b"`. -/
theorem removeParticipant_frame_witness :
    ∃ g', groupAB.removeParticipant "b" = .ok g' ∧
      g'.state = groupAB.state ∧ g'.toJSON = groupAB.toJSON ∧
      g'.names = groupAB.names.filter (fun n => n ≠ "b") ∧
      g'.participants.get "b" = none ∧
      ∀ n ∈ g'.names, ∃ p p', groupAB.participants.get n = some p ∧
        g'.participants.get n = some p' ∧ p'.stats = p.stats ∧
        "b" ∉ p'.hat.ids :=
  removeParticipant_frame groupAB "b" groupAB_ready (by decide)

/-! ## C4: concrete refutation data -/

/-- `Hat.empty.set "a" 9999`. -/
def hatBig : Hat := ⟨9999, [⟨"a", 9999, 9999⟩], StrMap.empty.set "a" 0⟩

/-- `hatBig.set "b" 9999`. -/
def hatPair : Hat :=
  ⟨19998, [⟨"a", 9999, 9999⟩, ⟨"b", 9999, 19998⟩], (StrMap.empty.set "a" 0).set "b" 1⟩

/-- The updated hat returned by `hatPair.draw 0`. -/
def hatDrawn : Hat :=
  ⟨29997, [⟨"a", 9999, 9999⟩, ⟨"b", 19998, 29997⟩], (StrMap.empty.set "a" 0).set "b" 1⟩

theorem hatBig_set : Hat.empty.set "a" 9999 = .ok hatBig := by
  rw [hat_set_ok (show Hat.empty.has "a" = false from rfl) 9999]
  rw [Hat.downscale, if_neg (by decide)]
  rfl

theorem hatPair_set : hatBig.set "b" 9999 = .ok hatPair := by
  rw [hat_set_ok (show hatBig.has "b" = false by decide) 9999]
  rw [Hat.downscale, if_neg (by decide)]
  rfl

theorem hatPair_bsearch : bsearch hatPair.elements 0 0 (hatPair.elements.length - 1) = 0 := by
  show bsearch hatPair.elements 0 0 1 = 0
  rw [bsearch, dif_pos (by decide)]
  rw [if_neg (show ¬ (((hatPair.elements.getD ((0 + 1) / 2) ⟨"", 0, 0⟩).cumulativeWeight : ℚ) < 0) by
    show ¬ (((9999 : Int) : ℚ) < 0)
    norm_num)]
  rw [bsearch, dif_neg (by decide)]

theorem hatPair_bump :
    ratCeil ((hatPair.size : ℚ) / (hatPair.elements.length : ℚ)) = 9999 := by
  have h1 : ((hatPair.size : Int) : ℚ) / ((hatPair.elements.length : Nat) : ℚ)
      = ((9999 : Int) : ℚ) := by
    show ((19998 : Int) : ℚ) / ((2 : Nat) : ℚ) = ((9999 : Int) : ℚ)
    push_cast
    norm_num
  rw [h1, ratCeil_eq, Int.ceil_intCast]

theorem hatPair_draw : hatPair.draw 0 = .ok ("a", hatDrawn) := by
  rw [Hat.draw, if_neg (by decide), if_neg (by decide)]
  show (Except.ok
      ((hatPair.elements.getD
          (bsearch hatPair.elements (0 * (hatPair.size : ℚ)) 0
            (hatPair.elements.length - 1)) ⟨"", 0, 0⟩).id,
        ⟨hatPair.size + ((hatPair.elements.length : Int) - 1)
            * ratCeil ((hatPair.size : ℚ) / (hatPair.elements.length : ℚ)),
          bumpElems
            (bsearch hatPair.elements (0 * (hatPair.size : ℚ)) 0
              (hatPair.elements.length - 1))
            (ratCeil ((hatPair.size : ℚ) / (hatPair.elements.length : ℚ)))
            hatPair.elements 0,
          hatPair.index⟩) : Except Err (String × Hat)) = .ok ("a", hatDrawn)
  rw [zero_mul, hatPair_bsearch, hatPair_bump]
  rfl

/-- **C4** (counterexample) A two-insert-then-draw sequence ends with a
candidate weight of 19998 > 9999 and an average weight 29997/2 > 9999: the
fairness bump of `draw` is applied after the downscale loop already ran, so
neither bound survives a draw. -/
theorem weight_bound_counterexample :
    Hat.empty.set "a" 9999 = .ok hatBig ∧
    hatBig.set "b" 9999 = .ok hatPair ∧
    hatPair.draw 0 = .ok ("a", hatDrawn) ∧
    (∃ e ∈ hatDrawn.elements, 9999 < e.weight) ∧
    9999 * (hatDrawn.elements.length : Int) < hatDrawn.size :=
  ⟨hatBig_set, hatPair_set, hatPair_draw, by decide, by decide⟩

/-- **C4** (amended) The 9999 bounds hold after the two operations that
normalise, not after a draw: every successful sampler insert leaves
`size ≤ 9999 × count` (the downscale loop's postcondition), and every
participant `choose` leaves every persisted recipient weight at most 9999
(the `normalizeWeights` postcondition).  A sampler draw may leave both a
weight and the average above 9999. -/
theorem weight_bound_amended (h : Hat) (id : String) (w : Int) (h' : Hat)
    (p : SecretSantaParticipant) (name : String)
    (hok : h.set id w = .ok h') :
    h'.size ≤ 9999 * (h'.elements.length : Int) ∧
    ∀ r ∈ (p.choose name).stats.recipients, r.weight ≤ 9999 :=
  ⟨hat_set_bound hok, choose_weight_bound p name⟩

/-- Witness for the amended C4 at the concrete insert `Hat.empty.set "a" 9999`. -/
theorem weight_bound_amended_witness :
    hatBig.size ≤ 9999 * (hatBig.elements.length : Int) ∧
    ∀ r ∈ ((⟨"c", defaultStats, Hat.empty⟩ : SecretSantaParticipant).choose
        "d").stats.recipients, r.weight ≤ 9999 :=
  weight_bound_amended Hat.empty "a" 9999 hatBig ⟨"c", defaultStats, Hat.empty⟩
    "d" hatBig_set

/-! ## C9: concrete refutation data -/

/-- The two-person group again, with a persisted state whose record for
`"a"` carries a record-level key (`note`) outside the core's schema. -/
def gC9 : SecretSanta :=
  ⟨["a", "b"], groupAB.participants, [⟨"a", defaultStats, [("note", "x")]⟩]⟩

/-- The participants map after `gC9.draw ["a","b"]` with all randoms 0. -/
def psC9 : StrMap SecretSantaParticipant :=
  (((gC9.participants.set "a" (⟨"a", defaultStats, hatOnlyB⟩ : SecretSantaParticipant)).set "a"
      ((⟨"a", defaultStats, hatOnlyB⟩ : SecretSantaParticipant).choose "b")).set "b"
    (⟨"b", defaultStats, hatOnlyA⟩ : SecretSantaParticipant)).set "b"
    ((⟨"b", defaultStats, hatOnlyA⟩ : SecretSantaParticipant).choose "a")

theorem jsRound_zero_div : jsRound (((0 : Int) : ℚ) / ((0 : Nat) : ℚ)) = 0 := by
  have h1 : (((0 : Int) : ℚ)) / (((0 : Nat)) : ℚ) = (0 : ℚ) := by norm_num
  rw [h1, jsRound]
  have h2 : (0 : ℚ) + 1 / 2 = 1 / 2 := by norm_num
  rw [h2, ratFloor_eq, Int.floor_eq_iff]
  constructor <;> norm_num

/-- `choose` on a participant with fresh default statistics. -/
theorem choose_fresh (nm pr : String) (h : Hat) (hpr : pr ≠ "") :
    ((⟨nm, defaultStats, h⟩ : SecretSantaParticipant).choose pr)
      = ⟨nm, ⟨0, pr, 0, [], []⟩, h⟩ := by
  show ((⟨nm, recalcMeanStats
      ⟨1, pr, (if ("" : String) = pr then 0 + 1 else 0), normWeights [], []⟩,
      h⟩ : SecretSantaParticipant)) = _
  rw [if_neg (fun hc => hpr hc.symm)]
  rw [show normWeights ([] : List Recipient) = [] from by rw [normWeights]; rfl]
  show ((⟨nm, ⟨jsRound (((0 : Int) : ℚ) / ((0 : Nat) : ℚ)), pr, 0, [], []⟩,
      h⟩ : SecretSantaParticipant)) = _
  rw [jsRound_zero_div]

theorem drawC9_loop :
    drawLoop (fun _ => 0) ["a", "b"] 0 gC9.participants []
      = .ok ([("a", "b"), ("b", "a")], psC9) := rfl

theorem collectC9 :
    collectJsons psC9 ["a", "b"]
      = .ok [⟨"a", ⟨0, "b", 0, [], []⟩, []⟩, ⟨"b", ⟨0, "a", 0, [], []⟩, []⟩] := by
  have h0 : collectJsons psC9 ["a", "b"]
      = .ok [((⟨"a", defaultStats, hatOnlyB⟩ : SecretSantaParticipant).choose "b").toJSON,
          ((⟨"b", defaultStats, hatOnlyA⟩ : SecretSantaParticipant).choose "a").toJSON] := rfl
  rw [choose_fresh "a" "b" hatOnlyB (by decide),
    choose_fresh "b" "a" hatOnlyA (by decide)] at h0
  exact h0

theorem drawC9 :
    gC9.draw ["a", "b"] (fun _ => 0)
      = .ok ([("a", "b"), ("b", "a")],
          ⟨["a", "b"], psC9,
            [⟨"a", ⟨0, "b", 0, [], []⟩, []⟩, ⟨"b", ⟨0, "a", 0, [], []⟩, []⟩]⟩) := by
  rw [SecretSanta.draw]
  simp only [drawC9_loop]
  simp only [collectC9]
  rfl

/-- **C9** (counterexample) A concrete draw on a state whose record for
`"a"` carries the record-level key `note`: the draw succeeds, but the merged
output state replaces that record by the fresh two-key serialization
`{name, stats}`, and no record of the output retains the `note` key. -/
theorem merge_passthrough_counterexample :
    gC9.state = [⟨"a", defaultStats, [("note", "x")]⟩] ∧
    gC9.draw ["a", "b"] (fun _ => 0)
      = .ok ([("a", "b"), ("b", "a")],
          ⟨["a", "b"], psC9,
            [⟨"a", ⟨0, "b", 0, [], []⟩, []⟩, ⟨"b", ⟨0, "a", 0, [], []⟩, []⟩]⟩) ∧
    (⟨"a", defaultStats, [("note", "x")]⟩ : StateRecord) ∉
      [(⟨"a", ⟨0, "b", 0, [], []⟩, []⟩ : StateRecord), ⟨"b", ⟨0, "a", 0, [], []⟩, []⟩] :=
  ⟨rfl, drawC9, by decide⟩

/-- **C9** (amended) The merge is non-destructive at record granularity:
every record of the prior state whose name differs from all processed
records' names passes through to the output unchanged (extra keys included);
every output record comes from the prior state or from the processed list;
each processed participant's serialization is the fresh two-key record
`{name, stats}` (so record-level extra keys of processed participants are
dropped); and `choose` preserves stats-level keys outside the core's schema,
so they survive inside the fresh record's `stats`. -/
theorem merge_passthrough_amended (old upd : List StateRecord)
    (hnd : (old.map StateRecord.name).Nodup)
    (p : SecretSantaParticipant) (name : String) :
    (∀ rec ∈ old, (∀ x ∈ upd, rec.name ≠ x.name) → rec ∈ updateStateList old upd) ∧
    (∀ rec ∈ updateStateList old upd, rec ∈ old ∨ rec ∈ upd) ∧
    p.toJSON = ⟨p.name, p.stats, []⟩ ∧
    (p.choose name).stats.extra = p.stats.extra :=
  ⟨fun _ hmem hnot => updateStateList_keep hnd hmem hnot,
   fun _ hmem => updateStateList_sub hmem,
   rfl, rfl⟩

/-- Witness for the amended C9: a record for an unprocessed name, extra key
included, survives a concrete merge verbatim. -/
theorem merge_passthrough_amended_witness :
    (⟨"c", defaultStats, [("k", "v")]⟩ : StateRecord) ∈
      updateStateList [⟨"c", defaultStats, [("k", "v")]⟩]
        [⟨"a", defaultStats, []⟩] :=
  (merge_passthrough_amended [⟨"c", defaultStats, [("k", "v")]⟩]
      [⟨"a", defaultStats, []⟩] (by decide)
      ⟨"a", defaultStats, Hat.empty⟩ "b").1
    ⟨"c", defaultStats, [("k", "v")]⟩ (by decide) (by decide)
